import Mathlib

/-
  Verification development for the Multi-Asset-Analysis repository.

  Shallow embedding of the portfolio-management core:
  - src/data/binance_connector.py : HistoricalData.get_kline (catch-to-empty)
  - src/data/datamanagement.py    : PortfolioManager and its operations

  Modelling conventions:
  - Python floats are modelled by the rationals ℚ (the spec's tolerance
    statements become exact equalities in ℚ; there is no NaN/Inf in ℚ, and
    the claims about division guards become statements about the branch
    structure of the embedded code).
  - pandas DataFrames holding kline data are modelled as lists of rows
    (KRow); timestamps are naturals.  The per-symbol "data" dict slot may
    also hold a float (update_symbol_element stores its float argument
    into any attribute, including "data"), so the slot is modelled by
    DataCell = frame | scalar; reading `.empty` on a scalar is a Python
    AttributeError, modelled by an error value.
  - Python dicts are modelled as insertion-ordered association lists.
  - random colour generation (get_random_color) and datetime.now() are
    nondeterministic inputs; they are passed in as explicit parameters.
  - a raised exception is modelled by the second component of the result
    (PM × Option Err): the first component is the state as mutated up to
    the raise point, the second is the exception if one was raised.
  - the market-data provider (python-binance Client) is an abstract
    function Fetch; `none` models the underlying client raising, which
    HistoricalData.get_kline catches, logs and converts to an empty frame.
-/

namespace MAA

/-- One row of the DataFrame produced by HistoricalData._process_kline_data:
columns opentime, open, high, low, close, volume, closetime, quote_volume,
log_returns (the first row's log return is NaN, modelled as `none`). -/
structure KRow where
  opentime : Nat
  closetime : Nat
  «open» : ℚ
  high : ℚ
  low : ℚ
  close : ℚ
  volume : ℚ
  quote_volume : ℚ
  log_returns : Option ℚ
deriving DecidableEq

abbrev KlineDF := List KRow

/-- The external market-data provider (MarketDataPort): symbol and interval
to kline frame; `none` models the underlying client raising an exception.
The `limit` argument of get_kline is never passed by the repository's
callers and is absorbed into the abstract function. -/
def Fetch := String → String → Option KlineDF

/-- HistoricalData.get_kline: calls the client and on any exception logs
the error and returns an empty DataFrame (the try/except of
binance_connector.py lines 79-90).  get_kline_async has the same
catch-to-empty behaviour and is modelled by the same function. -/
def get_kline (f : Fetch) (symbol interval : String) : KlineDF :=
  match f symbol interval with
  | some d => d
  | none => []

/-- The "data" slot of a symbol's dict: normally a DataFrame, but
update_symbol_element stores its float argument into whichever attribute
is named, so the slot may hold a float. -/
inductive DataCell where
  | frame (d : KlineDF)
  | scalar (q : ℚ)
deriving DecidableEq

def DataCell.isFrame : DataCell → Bool
  | .frame _ => true
  | .scalar _ => false

def DataCell.frameOf : DataCell → KlineDF
  | .frame d => d
  | .scalar _ => []

/-- One symbol's dict in PortfolioManager.symbols: keys units, data, close,
value, weight, colour. -/
structure SymbolRec where
  units : ℚ
  data : DataCell
  close : ℚ
  value : ℚ
  weight : ℚ
  colour : String
deriving DecidableEq

/-- A row of the combined wide table: the join keys (opentime, closetime)
plus named cells; a column name absent from `cells` is a missing (NaN)
cell for that row. -/
structure GRow where
  opentime : Nat
  closetime : Nat
  cells : List (String × ℚ)
deriving DecidableEq

abbrev DF := List GRow

/-- A row of the portfolio-performance table: opentime and portfolio_value. -/
abbrev PerfDF := List (Nat × ℚ)

/-- A raised Python exception: ValueError with its message, or
AttributeError (reading an attribute such as .empty or .columns off a
value that lacks it, e.g. None or a float). -/
inductive Err where
  | valueError (msg : String)
  | attributeError
deriving DecidableEq

/-- The PortfolioManager state: symbols dict, portfolio_value, the two
derived caches (None = not computed), and the _last_loaded dict. -/
structure PM where
  symbols : List (String × SymbolRec)
  portfolio_value : ℚ
  combined_data : Option DF
  portfolio_performance : Option PerfDF
  last_loaded : List (String × Nat)
deriving DecidableEq

/-- `symbol in self.symbols` -/
def hasSym (pm : PM) (s : String) : Bool :=
  pm.symbols.any (fun p => p.1 = s)

def findRec (syms : List (String × SymbolRec)) (s : String) : Option SymbolRec :=
  (syms.find? (fun p => p.1 = s)).map (fun p => p.2)

/-- `self.symbols[symbol]` (first binding of the key). -/
def getRec (pm : PM) (s : String) : Option SymbolRec :=
  findRec pm.symbols s

/-- dict assignment to an existing key: replace its binding in place. -/
def setRec (syms : List (String × SymbolRec)) (s : String) (r : SymbolRec) :
    List (String × SymbolRec) :=
  syms.map (fun p => (p.1, if p.1 = s then r else p.2))

def keys (pm : PM) : List String := pm.symbols.map (fun p => p.1)

/-- dict assignment `self._last_loaded[symbol] = now`: update or append. -/
def setLL (ll : List (String × Nat)) (s : String) (now : Nat) :
    List (String × Nat) :=
  if ll.any (fun p => p.1 = s) then
    ll.map (fun p => if p.1 = s then (s, now) else p)
  else ll ++ [(s, now)]

/-- PortfolioManager._symbol_attributes -/
def _symbol_attributes : List String := ["units", "data", "close", "value", "weight"]

/-- The keys every symbol's dict actually holds (the attributes plus the
colour assigned at creation). -/
def elementKeys : List String :=
  ["units", "data", "close", "value", "weight", "colour"]

/-- `self.symbols[symbol][element]` read. -/
inductive GetVal where
  | num (q : ℚ)
  | dataVal (d : DataCell)
  | str (s : String)
deriving DecidableEq

def getAttr (r : SymbolRec) (element : String) : GetVal :=
  if element = "units" then .num r.units
  else if element = "data" then .dataVal r.data
  else if element = "close" then .num r.close
  else if element = "value" then .num r.value
  else if element = "weight" then .num r.weight
  else .str r.colour

/-- `self.symbols[symbol][element] = value` for a float value (the declared
signature of update_symbol_element); storing a float into "data" turns the
slot into a scalar. -/
def setAttr (r : SymbolRec) (element : String) (v : ℚ) : SymbolRec :=
  if element = "units" then { r with units := v }
  else if element = "data" then { r with data := .scalar v }
  else if element = "close" then { r with close := v }
  else if element = "value" then { r with value := v }
  else if element = "weight" then { r with weight := v }
  else r

/-- `if units is not None: self.symbols[symbol]["units"] = units` -/
def applyUnits (ou : Option ℚ) (r0 : SymbolRec) : SymbolRec :=
  match ou with
  | some u => { r0 with units := u }
  | none => r0

/-- `data["close"].iloc[-1]`: the close of the last row (callers guard
non-emptiness). -/
def lastCloseOf (d : KlineDF) : ℚ :=
  match d.getLast? with
  | some r => r.close
  | none => 0

/-- PortfolioManager._calculate_weighting: portfolio_value = Σ value; if it
is positive, weight = value / portfolio_value per symbol, else every
weight = 0. -/
def _calculate_weighting (pm : PM) : PM :=
  let total := (pm.symbols.map (fun p => p.2.value)).sum
  if 0 < total then
    { pm with portfolio_value := total,
              symbols := pm.symbols.map
                (fun p => (p.1, { p.2 with weight := p.2.value / total })) }
  else
    { pm with portfolio_value := total,
              symbols := pm.symbols.map
                (fun p => (p.1, { p.2 with weight := 0 })) }

/-- PortfolioManager._invalidate_computed_data -/
def _invalidate_computed_data (pm : PM) : PM :=
  { pm with combined_data := none, portfolio_performance := none }

/-- `symbol.upper()` (character-wise uppercase; symbols are ASCII). -/
def upperStr (s : String) : String := ⟨s.data.map Char.toUpper⟩

def notFoundMsg (s : String) : String :=
  "Symbol " ++ s ++ " not found in symbols dictionary."

/-- PortfolioManager.add_symbol: uppercase the key; if present, log and
return (no exception, no mutation); else create the record (attributes
initialised to 0.0 / empty frame), set units, fetch data, set close (last
close, or 0.0 for an empty frame), value, a fresh colour, stamp
_last_loaded, and recompute the weighting.  add_symbol_async differs only
in awaiting the fetch and is modelled by the same function. -/
def add_symbol (pm : PM) (symbol : String) (units : ℚ) (interval : String)
    (f : Fetch) (newColour : String) (now : Nat) : PM × Option Err :=
  let symbol := upperStr symbol
  if hasSym pm symbol then (pm, none)
  else
    let d := get_kline f symbol interval
    let close := if d.isEmpty then 0 else lastCloseOf d
    let r : SymbolRec :=
      { units := units, data := .frame d, close := close,
        value := close * units, weight := 0, colour := newColour }
    let pm1 : PM :=
      { pm with symbols := pm.symbols ++ [(symbol, r)],
                last_loaded := setLL pm.last_loaded symbol now }
    (_calculate_weighting pm1, none)

/-- PortfolioManager.remove_symbol: if present, delete the symbol (and its
_last_loaded stamp), recompute the weighting and invalidate the caches;
if absent, log a warning and return (no exception, no mutation). -/
def remove_symbol (pm : PM) (symbol : String) : PM × Option Err :=
  if hasSym pm symbol then
    let pm1 : PM :=
      { pm with symbols := pm.symbols.filter (fun p => ¬ (p.1 = symbol)),
                last_loaded := pm.last_loaded.filter (fun p => ¬ (p.1 = symbol)) }
    (_invalidate_computed_data (_calculate_weighting pm1), none)
  else (pm, none)

/-- PortfolioManager.update_symbol (synchronous): raise ValueError if the
symbol is absent; optionally set units; always refetch the series; set
close from the new series (0.0 if empty), value = close * units; stamp
_last_loaded; recompute the weighting; invalidate the caches. -/
def update_symbol (pm : PM) (symbol : String) (units : Option ℚ)
    (interval : String) (f : Fetch) (now : Nat) : PM × Option Err :=
  match getRec pm symbol with
  | none => (pm, some (.valueError (notFoundMsg symbol)))
  | some r0 =>
    let r1 := applyUnits units r0
    let d := get_kline f symbol interval
    let close := if d.isEmpty then 0 else lastCloseOf d
    let r2 := { r1 with data := DataCell.frame d, close := close,
                        value := close * r1.units }
    let pm1 : PM :=
      { pm with symbols := setRec pm.symbols symbol r2,
                last_loaded := setLL pm.last_loaded symbol now }
    (_invalidate_computed_data (_calculate_weighting pm1), none)

/-- PortfolioManager.update_symbol_async: raise ValueError if the symbol is
absent; optionally set units; refetch the series only when update_data is
set; then read the (possibly old) series' `.empty` — an AttributeError if
the data slot holds a float, raised after the units assignment has already
been committed; otherwise set close/value, stamp _last_loaded, recompute
the weighting, invalidate the caches. -/
def update_symbol_async (pm : PM) (symbol : String) (units : Option ℚ)
    (update_data : Bool) (interval : String) (f : Fetch) (now : Nat) :
    PM × Option Err :=
  match getRec pm symbol with
  | none => (pm, some (.valueError (notFoundMsg symbol)))
  | some r0 =>
    let r1 := applyUnits units r0
    if update_data then
      let d := get_kline f symbol interval
      let close := if d.isEmpty then 0 else lastCloseOf d
      let r2 := { r1 with data := DataCell.frame d, close := close,
                          value := close * r1.units }
      let pm1 : PM :=
        { pm with symbols := setRec pm.symbols symbol r2,
                  last_loaded := setLL pm.last_loaded symbol now }
      (_invalidate_computed_data (_calculate_weighting pm1), none)
    else
      match r1.data with
      | .scalar _ =>
        ({ pm with symbols := setRec pm.symbols symbol r1 }, some .attributeError)
      | .frame d =>
        let close := if d.isEmpty then 0 else lastCloseOf d
        let r2 := { r1 with close := close, value := close * r1.units }
        let pm1 : PM :=
          { pm with symbols := setRec pm.symbols symbol r2,
                    last_loaded := setLL pm.last_loaded symbol now }
        (_invalidate_computed_data (_calculate_weighting pm1), none)

/-- PortfolioManager.update_all_symbols: apply update_symbol to every key
of the symbols dict in order; an uncaught exception aborts the remainder
of the loop (the for-loop propagates it). -/
def update_all_symbols (pm : PM) (units : Option ℚ) (interval : String)
    (f : Fetch) (now : Nat) : PM × Option Err :=
  (keys pm).foldl
    (fun acc s =>
      match acc.2 with
      | some _ => acc
      | none => update_symbol acc.1 s units interval f now)
    (pm, none)

/-- PortfolioManager.update_all_symbols_async: one update_symbol_async task
per key, gathered with return_exceptions=True — every task runs to
completion or failure, a failed task's exception is collected and
discarded, its mutations up to the raise point remain.  The tasks mutate
shared state only in their post-await commit blocks, which the event loop
runs atomically; the final state is that of running the commits in some
order, modelled here in dict order. -/
def update_all_symbols_async (pm : PM) (units : Option ℚ) (update_data : Bool)
    (interval : String) (f : Fetch) (now : Nat) : PM :=
  (keys pm).foldl
    (fun acc s => (update_symbol_async acc s units update_data interval f now).1)
    pm

/-- PortfolioManager.update_symbol_element: ValueError if the symbol is
absent or the element is not one of _symbol_attributes; else assign the
value to that element; if the element is units or close, also recompute
value = close * units and the weighting (no cache invalidation). -/
def update_symbol_element (pm : PM) (symbol element : String) (v : ℚ) :
    PM × Option Err :=
  match getRec pm symbol with
  | none => (pm, some (.valueError (notFoundMsg symbol)))
  | some r0 =>
    if element ∈ _symbol_attributes then
      let r1 := setAttr r0 element v
      if element = "units" ∨ element = "close" then
        let r2 := { r1 with value := r1.close * r1.units }
        (_calculate_weighting { pm with symbols := setRec pm.symbols symbol r2 },
         none)
      else ({ pm with symbols := setRec pm.symbols symbol r1 }, none)
    else
      (pm, some (.valueError
        ("Element " ++ element ++ " not found in symbol attributes.")))

/-- PortfolioManager.get_symbol_element: ValueError if the symbol is absent
or the element is not a key of the symbol's dict (the dict holds the five
attributes plus colour); else return the stored value. -/
def get_symbol_element (pm : PM) (symbol element : String) :
    Except Err GetVal :=
  match getRec pm symbol with
  | none => .error (.valueError (notFoundMsg symbol))
  | some r =>
    if element ∈ elementKeys then .ok (getAttr r element)
    else .error (.valueError
      ("Element " ++ element ++ " not found in symbol " ++ symbol ++ "."))

/-- PortfolioManager.get_symbol_list -/
def get_symbol_list (pm : PM) : List String := keys pm

/-- The kline value columns that gen_combine_ohlc renames per symbol
(col_lst in the source). -/
def renamedCols (s : String) : List String :=
  ["open_" ++ s, "high_" ++ s, "low_" ++ s, "close_" ++ s,
   "volume_" ++ s, "log_returns_" ++ s]

def krKey (kr : KRow) : Nat × Nat := (kr.opentime, kr.closetime)

def rowKey (r : GRow) : Nat × Nat := (r.opentime, r.closetime)

/-- A kline frame after gen_combine_ohlc's per-symbol rename: the six value
columns get the symbol suffix; quote_volume is not in col_lst and keeps
its name; a NaN log return is a missing cell. -/
def renameDf (s : String) (d : KlineDF) : DF :=
  d.map (fun kr =>
    { opentime := kr.opentime, closetime := kr.closetime,
      cells :=
        [("open_" ++ s, kr.«open»), ("high_" ++ s, kr.high),
         ("low_" ++ s, kr.low), ("close_" ++ s, kr.close),
         ("volume_" ++ s, kr.volume), ("quote_volume", kr.quote_volume)] ++
        (match kr.log_returns with
         | some q => [("log_returns_" ++ s, q)]
         | none => []) })

/-- pd.merge(left, right, on=["closetime", "opentime"], how="outer") for
frames whose key pairs are unique within each frame: rows matched on the
key pair are combined, unmatched rows keep only their own side's cells
(the other side's columns are missing).  (pandas suffixes a non-key column
name occurring on both sides, e.g. quote_volume, with _x/_y; no claim
refers to such a column and the model keeps both cells under the
original name.) -/
def mergeRowFn (r : DF) (lr : GRow) : GRow :=
  match r.find? (fun rr => rowKey rr = rowKey lr) with
  | some rr => { lr with cells := lr.cells ++ rr.cells }
  | none => lr

def mergeOuter (l r : DF) : DF :=
  l.map (mergeRowFn r) ++
  r.filter (fun rr => ¬ l.any (fun lr => rowKey lr = rowKey rr))

/-- The dfs list built by gen_combine_ohlc's loop: for each symbol in dict
order, read its data slot (`.empty` on a float raises AttributeError,
outside the try), skip empty frames, rename the value columns of the
rest. -/
def collectDfs : List (String × SymbolRec) → Except Err (List DF)
  | [] => .ok []
  | (s, r) :: rest =>
    match r.data with
    | .scalar _ => .error .attributeError
    | .frame d => do
      let tail ← collectDfs rest
      pure (if d.isEmpty then tail else renameDf s d :: tail)

/-- PortfolioManager.gen_combine_ohlc: empty symbols dict gives an empty
combined table; else rename and collect the non-empty frames; no frames
gives an empty table; else reduce them with the outer merge.  (The
try/except around the reduce converts a merge exception to an empty
table; the modelled merge is total, so that branch is unreachable in the
model.) -/
def gen_combine_ohlc (pm : PM) : PM × Option Err :=
  if pm.symbols.isEmpty then ({ pm with combined_data := some [] }, none)
  else
    match collectDfs pm.symbols with
    | .error e => (pm, some e)
    | .ok [] => ({ pm with combined_data := some [] }, none)
    | .ok (d :: ds) =>
      ({ pm with combined_data := some (ds.foldl mergeOuter d) }, none)

/-- PortfolioManager.get_combined_ohlc: rebuild if and only if the cache is
None, then return the cached table. -/
def get_combined_ohlc (pm : PM) : PM × Except Err DF :=
  match pm.combined_data with
  | some cd => (pm, .ok cd)
  | none =>
    match gen_combine_ohlc pm with
    | (pm', none) => (pm', .ok ((pm'.combined_data).getD []))
    | (pm', some e) => (pm', .error e)

/-- `col in self.combined_data.columns`: a column is present when some row
carries a cell under that name. -/
def colIn (cd : DF) (c : String) : Bool :=
  cd.any (fun row => row.cells.any (fun p => p.1 = c))

def cellVal (row : GRow) (c : String) : Option ℚ :=
  (row.cells.find? (fun p => p.1 = c)).map (fun p => p.2)

/-- PortfolioManager.gen_portfolio_performance.  The guard for a missing or
empty combined table assigns an empty performance table but does NOT
return: the code falls through and reads self.combined_data.columns,
which on None raises AttributeError (after the assignment has been
committed).  Otherwise: keep the close_SYMBOL columns that exist, pair
them with the symbols' units, and produce per row the dot product with
missing closes filled with 0. -/
def gen_portfolio_performance (pm : PM) : PM × Option Err :=
  let pm1 :=
    if pm.combined_data = none ∨ pm.combined_data = some [] then
      { pm with portfolio_performance := some [] }
    else pm
  match pm1.combined_data with
  | none => (pm1, some .attributeError)
  | some cd =>
    let pairs := pm1.symbols.map (fun p => ("close_" ++ p.1, p.2.units))
    let existing := pairs.filter (fun q => colIn cd q.1)
    if existing.isEmpty then
      ({ pm1 with portfolio_performance := some [] }, none)
    else
      ({ pm1 with portfolio_performance := some (cd.map (fun row =>
          (row.opentime,
           (existing.map (fun q => (cellVal row q.1).getD 0 * q.2)).sum))) },
       none)

/-- PortfolioManager.get_portfolio_performance: rebuild if and only if the
cache is None, then return the cached table. -/
def get_portfolio_performance (pm : PM) : PM × Except Err PerfDF :=
  match pm.portfolio_performance with
  | some p => (pm, .ok p)
  | none =>
    match gen_portfolio_performance pm with
    | (pm', none) => (pm', .ok ((pm'.portfolio_performance).getD []))
    | (pm', some e) => (pm', .error e)

/-- Modelled from the spec: the repository contains no StalenessPolicy —
no isStale function or staleness check exists anywhere in src (the
_last_loaded stamps are written but never consulted).  Modelled from spec
section 4.1: stale iff the force flag is set, or the cached series is
empty, or now - lastRefreshed exceeds maxAge.  A pure function of its
arguments. -/
def isStale (lastRefreshed now maxAge : ℤ) (force seriesEmpty : Bool) : Bool :=
  force || seriesEmpty || decide (maxAge < now - lastRefreshed)

/-- The portfolio weight invariant of spec section 3: positive totalValue
forces the weights to sum to 1; zero totalValue forces every weight to be
0. -/
def WInv (pm : PM) : Prop :=
  (0 < pm.portfolio_value →
    ((pm.symbols.map (fun p => p.2.weight)).sum = 1)) ∧
  (pm.portfolio_value = 0 → ∀ p ∈ pm.symbols, p.2.weight = 0)

instance (pm : PM) : Decidable (WInv pm) := by
  unfold WInv; infer_instance

/- ------------------------------------------------------------------ -/
/- Basic lemmas about the association-list dict model.                 -/
/- ------------------------------------------------------------------ -/

theorem findRec_cons (p : String × SymbolRec) (rest : List (String × SymbolRec))
    (t : String) :
    findRec (p :: rest) t = if p.1 = t then some p.2 else findRec rest t := by
  by_cases h : p.1 = t
  · rw [if_pos h]
    unfold findRec
    rw [List.find?_cons_of_pos _ (by simp [h])]
    rfl
  · rw [if_neg h]
    unfold findRec
    rw [List.find?_cons_of_neg _ (by simp [h])]

theorem setRec_cons (p : String × SymbolRec) (rest : List (String × SymbolRec))
    (s : String) (r : SymbolRec) :
    setRec (p :: rest) s r =
      (p.1, if p.1 = s then r else p.2) :: setRec rest s r := by
  unfold setRec
  rw [List.map_cons]

theorem findRec_map (g : SymbolRec → SymbolRec) (syms : List (String × SymbolRec))
    (t : String) :
    findRec (syms.map (fun p => (p.1, g p.2))) t = (findRec syms t).map g := by
  induction syms with
  | nil => rfl
  | cons p rest ih =>
    rw [List.map_cons, findRec_cons, findRec_cons]
    by_cases h : p.1 = t
    · simp only [h, if_pos, if_true]
      rfl
    · simp only [h, if_neg, not_false_iff, if_false]
      exact ih

theorem findRec_setRec_ne (syms : List (String × SymbolRec)) (s t : String)
    (r : SymbolRec) (h : t ≠ s) :
    findRec (setRec syms s r) t = findRec syms t := by
  induction syms with
  | nil => rfl
  | cons p rest ih =>
    rw [setRec_cons, findRec_cons, findRec_cons]
    by_cases ht : p.1 = t
    · rw [if_pos ht, if_pos ht]
      have hp : ¬ (p.1 = s) := by rw [ht]; exact h
      rw [if_neg hp]
    · rw [if_neg ht, if_neg ht]
      exact ih

theorem findRec_setRec_self (syms : List (String × SymbolRec)) (s : String)
    (r r0 : SymbolRec) (h : findRec syms s = some r0) :
    findRec (setRec syms s r) s = some r := by
  induction syms with
  | nil => simp [findRec] at h
  | cons p rest ih =>
    rw [setRec_cons, findRec_cons]
    by_cases hp : p.1 = s
    · rw [if_pos hp, if_pos hp]
    · rw [if_neg hp]
      rw [findRec_cons, if_neg hp] at h
      exact ih h

theorem keys_setRec (syms : List (String × SymbolRec)) (s : String)
    (r : SymbolRec) :
    (setRec syms s r).map (fun p => p.1) = syms.map (fun p => p.1) := by
  unfold setRec
  rw [List.map_map]
  rfl

theorem hasSym_iff_findRec (pm : PM) (s : String) :
    hasSym pm s = true ↔ (getRec pm s).isSome := by
  unfold hasSym getRec
  induction pm.symbols with
  | nil => simp [findRec]
  | cons p rest ih =>
    rw [findRec_cons]
    by_cases hp : p.1 = s
    · simp [List.any_cons, hp]
    · simp only [List.any_cons, hp, if_neg, not_false_iff, if_false,
        decide_eq_true_eq, false_or, Bool.false_or]
      exact ih

/- ------------------------------------------------------------------ -/
/- Lemmas about _calculate_weighting.                                  -/
/- ------------------------------------------------------------------ -/

/-- The total the weighting pass computes. -/
def totalOf (pm : PM) : ℚ := (pm.symbols.map (fun p => p.2.value)).sum

theorem sum_map_div (l : List (String × SymbolRec)) (t : ℚ) :
    (l.map (fun p => p.2.value / t)).sum = (l.map (fun p => p.2.value)).sum / t := by
  induction l with
  | nil => simp
  | cons p rest ih => simp [add_div, ih]

theorem calc_eq (pm : PM) :
    _calculate_weighting pm =
      if 0 < totalOf pm then
        { pm with portfolio_value := totalOf pm,
                  symbols := pm.symbols.map (fun p =>
                    (p.1, { p.2 with weight := p.2.value / totalOf pm })) }
      else
        { pm with portfolio_value := totalOf pm,
                  symbols := pm.symbols.map (fun p =>
                    (p.1, { p.2 with weight := 0 })) } := rfl

theorem calc_portfolio_value (pm : PM) :
    (_calculate_weighting pm).portfolio_value = totalOf pm := by
  rw [calc_eq]
  by_cases h : 0 < totalOf pm
  · rw [if_pos h]
  · rw [if_neg h]

theorem calc_caches (pm : PM) :
    (_calculate_weighting pm).combined_data = pm.combined_data ∧
    (_calculate_weighting pm).portfolio_performance = pm.portfolio_performance ∧
    (_calculate_weighting pm).last_loaded = pm.last_loaded := by
  rw [calc_eq]
  by_cases h : 0 < totalOf pm
  · rw [if_pos h]; exact ⟨rfl, rfl, rfl⟩
  · rw [if_neg h]; exact ⟨rfl, rfl, rfl⟩

theorem calc_getRec (pm : PM) (t : String) :
    getRec (_calculate_weighting pm) t =
      (getRec pm t).map (fun r =>
        if 0 < totalOf pm then { r with weight := r.value / totalOf pm }
        else { r with weight := 0 }) := by
  unfold getRec
  rw [calc_eq]
  by_cases h : 0 < totalOf pm
  · rw [if_pos h]
    have hfun : (fun r : SymbolRec =>
        if 0 < totalOf pm then { r with weight := r.value / totalOf pm }
        else { r with weight := 0 }) =
        (fun r => { r with weight := r.value / totalOf pm }) := by
      funext r; rw [if_pos h]
    rw [hfun]
    exact findRec_map (fun r => { r with weight := r.value / totalOf pm })
      pm.symbols t
  · rw [if_neg h]
    have hfun : (fun r : SymbolRec =>
        if 0 < totalOf pm then { r with weight := r.value / totalOf pm }
        else { r with weight := 0 }) =
        (fun r => { r with weight := (0 : ℚ) }) := by
      funext r; rw [if_neg h]
    rw [hfun]
    exact findRec_map (fun r => { r with weight := (0 : ℚ) }) pm.symbols t

theorem keys_calc (pm : PM) : keys (_calculate_weighting pm) = keys pm := by
  rw [calc_eq]
  by_cases h : 0 < totalOf pm
  · rw [if_pos h]
    show (pm.symbols.map _).map _ = _
    rw [List.map_map]
    rfl
  · rw [if_neg h]
    show (pm.symbols.map _).map _ = _
    rw [List.map_map]
    rfl

/-- The weighting pass establishes the weight invariant from any state. -/
theorem winv_calc (pm : PM) : WInv (_calculate_weighting pm) := by
  unfold WInv
  rw [calc_eq]
  by_cases h : 0 < totalOf pm
  · rw [if_pos h]
    refine ⟨fun _ => ?_, fun h0 => ?_⟩
    · show ((pm.symbols.map (fun p =>
          (p.1, { p.2 with weight := p.2.value / totalOf pm }))).map
            (fun p : String × SymbolRec => p.2.weight)).sum = 1
      rw [List.map_map]
      have hcomp : ((fun p : String × SymbolRec => p.2.weight) ∘
          (fun p : String × SymbolRec =>
            (p.1, { p.2 with weight := p.2.value / totalOf pm })))
          = (fun p : String × SymbolRec => p.2.value / totalOf pm) := rfl
      rw [hcomp, sum_map_div]
      exact div_self (ne_of_gt h)
    · exact absurd h0 (ne_of_gt h)
  · rw [if_neg h]
    refine ⟨fun hpos => absurd hpos h, fun _ => ?_⟩
    intro p hp
    have hp' : p ∈ pm.symbols.map (fun p => (p.1, { p.2 with weight := (0 : ℚ) })) := hp
    rw [List.mem_map] at hp'
    obtain ⟨q, _, rfl⟩ := hp'
    rfl

theorem winv_invalidate (pm : PM) (h : WInv pm) :
    WInv (_invalidate_computed_data pm) := h

/- ------------------------------------------------------------------ -/
/- Closed forms of the mutating operations.                            -/
/- ------------------------------------------------------------------ -/

theorem findRec_append_right (l : List (String × SymbolRec)) (S : String)
    (r : SymbolRec) (h : l.any (fun p => p.1 = S) = false) :
    findRec (l ++ [(S, r)]) S = some r := by
  induction l with
  | nil =>
    rw [List.nil_append, findRec_cons]
    simp
  | cons p rest ih =>
    rw [List.any_cons] at h
    rw [Bool.or_eq_false_iff] at h
    obtain ⟨ha, hb⟩ := h
    rw [List.cons_append, findRec_cons]
    have hp : ¬ (p.1 = S) := by simpa using ha
    rw [if_neg hp]
    exact ih hb

/-- The record add_symbol builds for a new symbol. -/
def addRec (f : Fetch) (S i : String) (u : ℚ) (c : String) : SymbolRec :=
  let d := get_kline f S i
  let close := if d.isEmpty then 0 else lastCloseOf d
  { units := u, data := .frame d, close := close, value := close * u,
    weight := 0, colour := c }

theorem add_symbol_eq_dup (pm : PM) (s : String) (u : ℚ) (i : String)
    (f : Fetch) (c : String) (now : Nat) (h : hasSym pm (upperStr s) = true) :
    add_symbol pm s u i f c now = (pm, none) := by
  unfold add_symbol
  rw [if_pos h]

theorem add_symbol_eq_new (pm : PM) (s : String) (u : ℚ) (i : String)
    (f : Fetch) (c : String) (now : Nat) (h : hasSym pm (upperStr s) = false) :
    add_symbol pm s u i f c now =
      (_calculate_weighting
        { pm with symbols := pm.symbols ++ [((upperStr s), addRec f (upperStr s) i u c)],
                  last_loaded := setLL pm.last_loaded (upperStr s) now }, none) := by
  unfold add_symbol addRec
  rw [if_neg (by rw [h]; exact Bool.false_ne_true)]

theorem remove_symbol_eq_absent (pm : PM) (s : String)
    (h : hasSym pm s = false) : remove_symbol pm s = (pm, none) := by
  unfold remove_symbol
  rw [if_neg (by rw [h]; exact Bool.false_ne_true)]

theorem remove_symbol_eq_present (pm : PM) (s : String)
    (h : hasSym pm s = true) :
    remove_symbol pm s =
      (_invalidate_computed_data (_calculate_weighting
        { pm with symbols := pm.symbols.filter (fun p => ¬ (p.1 = s)),
                  last_loaded := pm.last_loaded.filter (fun p => ¬ (p.1 = s)) }),
       none) := by
  unfold remove_symbol
  rw [if_pos h]

/-- The record update_symbol commits for a present symbol. -/
def refreshRec (f : Fetch) (s i : String) (ou : Option ℚ) (r0 : SymbolRec) :
    SymbolRec :=
  let r1 := applyUnits ou r0
  let d := get_kline f s i
  let close := if d.isEmpty then 0 else lastCloseOf d
  { r1 with data := DataCell.frame d, close := close, value := close * r1.units }

theorem update_symbol_eq_absent (pm : PM) (s : String) (ou : Option ℚ)
    (i : String) (f : Fetch) (now : Nat) (h : getRec pm s = none) :
    update_symbol pm s ou i f now = (pm, some (.valueError (notFoundMsg s))) := by
  unfold update_symbol
  simp only [h]

theorem update_symbol_eq_present (pm : PM) (s : String) (ou : Option ℚ)
    (i : String) (f : Fetch) (now : Nat) (r0 : SymbolRec)
    (h : getRec pm s = some r0) :
    update_symbol pm s ou i f now =
      (_invalidate_computed_data (_calculate_weighting
        { pm with symbols := setRec pm.symbols s (refreshRec f s i ou r0),
                  last_loaded := setLL pm.last_loaded s now }), none) := by
  unfold update_symbol refreshRec
  simp only [h]

/-- The record update_symbol_async commits when it skips the fetch. -/
def recomputeRec (ou : Option ℚ) (r0 : SymbolRec) (d : KlineDF) : SymbolRec :=
  let r1 := applyUnits ou r0
  let close := if d.isEmpty then 0 else lastCloseOf d
  { r1 with close := close, value := close * r1.units }

theorem update_symbol_async_eq_absent (pm : PM) (s : String) (ou : Option ℚ)
    (ud : Bool) (i : String) (f : Fetch) (now : Nat) (h : getRec pm s = none) :
    update_symbol_async pm s ou ud i f now =
      (pm, some (.valueError (notFoundMsg s))) := by
  unfold update_symbol_async
  simp only [h]

theorem update_symbol_async_eq_fetch (pm : PM) (s : String) (ou : Option ℚ)
    (i : String) (f : Fetch) (now : Nat) (r0 : SymbolRec)
    (h : getRec pm s = some r0) :
    update_symbol_async pm s ou true i f now =
      (_invalidate_computed_data (_calculate_weighting
        { pm with symbols := setRec pm.symbols s (refreshRec f s i ou r0),
                  last_loaded := setLL pm.last_loaded s now }), none) := by
  unfold update_symbol_async refreshRec
  simp only [h, if_pos]

theorem update_symbol_async_eq_skip (pm : PM) (s : String) (ou : Option ℚ)
    (i : String) (f : Fetch) (now : Nat) (r0 : SymbolRec) (d : KlineDF)
    (h : getRec pm s = some r0)
    (hd : (applyUnits ou r0).data = DataCell.frame d) :
    update_symbol_async pm s ou false i f now =
      (_invalidate_computed_data (_calculate_weighting
        { pm with symbols := setRec pm.symbols s (recomputeRec ou r0 d),
                  last_loaded := setLL pm.last_loaded s now }), none) := by
  unfold update_symbol_async recomputeRec
  simp only [h, Bool.false_eq_true, if_false]
  rw [hd]

theorem update_symbol_async_eq_scalar (pm : PM) (s : String) (ou : Option ℚ)
    (i : String) (f : Fetch) (now : Nat) (r0 : SymbolRec) (q : ℚ)
    (h : getRec pm s = some r0)
    (hd : (applyUnits ou r0).data = DataCell.scalar q) :
    update_symbol_async pm s ou false i f now =
      ({ pm with symbols := setRec pm.symbols s (applyUnits ou r0) },
       some .attributeError) := by
  unfold update_symbol_async
  simp only [h, Bool.false_eq_true, if_false]
  rw [hd]

theorem setElement_eq_absent (pm : PM) (s el : String) (v : ℚ)
    (h : getRec pm s = none) :
    update_symbol_element pm s el v = (pm, some (.valueError (notFoundMsg s))) := by
  unfold update_symbol_element
  simp only [h]

theorem setElement_eq_unknown (pm : PM) (s el : String) (v : ℚ)
    (r0 : SymbolRec) (h : getRec pm s = some r0)
    (h1 : el ∉ _symbol_attributes) :
    update_symbol_element pm s el v =
      (pm, some (.valueError
        ("Element " ++ el ++ " not found in symbol attributes."))) := by
  unfold update_symbol_element
  simp only [h]
  rw [if_neg h1]

theorem setElement_eq_noRecompute (pm : PM) (s el : String) (v : ℚ)
    (r0 : SymbolRec) (h : getRec pm s = some r0)
    (h1 : el ∈ _symbol_attributes) (h2 : ¬ (el = "units" ∨ el = "close")) :
    update_symbol_element pm s el v =
      ({ pm with symbols := setRec pm.symbols s (setAttr r0 el v) }, none) := by
  unfold update_symbol_element
  simp only [h]
  rw [if_pos h1, if_neg h2]

/-- `self.symbols[symbol]["value"] = close * units` after a units/close
assignment through update_symbol_element. -/
def withValue (r : SymbolRec) : SymbolRec := { r with value := r.close * r.units }

theorem setElement_eq_recompute (pm : PM) (s el : String) (v : ℚ)
    (r0 : SymbolRec) (h : getRec pm s = some r0)
    (h1 : el ∈ _symbol_attributes) (h2 : el = "units" ∨ el = "close") :
    update_symbol_element pm s el v =
      (_calculate_weighting
        { pm with symbols := setRec pm.symbols s (withValue (setAttr r0 el v)) },
       none) := by
  unfold update_symbol_element withValue
  simp only [h]
  rw [if_pos h1, if_pos h2]

/- ------------------------------------------------------------------ -/
/- Concrete fixtures for witnesses and counterexamples.                -/
/- ------------------------------------------------------------------ -/

def krA : KRow :=
  { opentime := 1, closetime := 2, «open» := 10, high := 12, low := 9,
    close := 11, volume := 100, quote_volume := 50, log_returns := none }

def recBTC : SymbolRec :=
  { units := 1, data := .frame [krA], close := 11, value := 11, weight := 1,
    colour := "#FF6B6B" }

def dfMark : DF :=
  [{ opentime := 1, closetime := 2, cells := [("close_BTCUSDT", 11)] }]

/-- A state whose derived caches are populated. -/
def pmFix : PM :=
  { symbols := [("BTCUSDT", recBTC)], portfolio_value := 11,
    combined_data := some dfMark, portfolio_performance := some [(1, 11)],
    last_loaded := [("BTCUSDT", 0)] }

/-- The state right after any update: both caches invalidated. -/
def pmBug : PM :=
  { symbols := [("BTCUSDT", recBTC)], portfolio_value := 11,
    combined_data := none, portfolio_performance := none,
    last_loaded := [("BTCUSDT", 0)] }

/-- A provider whose underlying client raises on every call. -/
def fetchNone : Fetch := fun _ _ => none

/- ------------------------------------------------------------------ -/
/- Claim C9                                                            -/
/- ------------------------------------------------------------------ -/

/-- C9: for all timestamps t, now and ages maxAge, isStale(t, now, maxAge)
is true iff now - t > maxAge, false at exact equality, true when force is
set regardless of age, and true when the cached series is empty.  (The
function is spec-modelled: src contains no staleness check; as a Lean
function it is pure by construction.) -/
theorem C9_isStale_contract (t now maxAge : ℤ) :
    (isStale t now maxAge false false = true ↔ maxAge < now - t) ∧
    (now - t = maxAge → isStale t now maxAge false false = false) ∧
    (∀ e : Bool, isStale t now maxAge true e = true) ∧
    (∀ fo : Bool, isStale t now maxAge fo true = true) := by
  refine ⟨?_, ?_, fun e => rfl, fun fo => ?_⟩
  · unfold isStale
    simp
  · intro h
    unfold isStale
    simp [h]
  · unfold isStale
    cases fo <;> rfl

/-- C9 witness: concrete staleness decisions at age 7 > 5 and at exact
equality 5 = 5. -/
theorem C9_isStale_contract_witness :
    isStale 0 7 5 false false = true ∧ isStale 0 5 5 false false = false :=
  ⟨(C9_isStale_contract 0 7 5).1.mpr (by decide),
   (C9_isStale_contract 0 5 5).2.1 (by decide)⟩

/- ------------------------------------------------------------------ -/
/- Claim C8                                                            -/
/- ------------------------------------------------------------------ -/

/-- C8: evaluating the code at the failing input.  In the state reached
right after any mutating update (both caches None — _invalidate_computed_data
sets combined_data = None and portfolio_performance = None),
get_portfolio_performance raises AttributeError: gen_portfolio_performance's
guard assigns the empty fallback table but does not return, and the code
falls through to read None.columns.  The claim says the getter always
returns a well-formed (possibly empty) table and never raises. -/
theorem C8_perfGetter_raises :
    (get_portfolio_performance pmBug).2 = Except.error Err.attributeError ∧
    (get_portfolio_performance pmBug).1.portfolio_performance = some [] :=
  ⟨rfl, rfl⟩

/- ------------------------------------------------------------------ -/
/- Claim C10                                                           -/
/- ------------------------------------------------------------------ -/

/-- C10: for a present symbol, update_symbol_element with element data,
value or weight assigns only that one field of that symbol: no exception,
portfolio_value, both caches, _last_loaded, every other symbol's record
and the key list are unchanged, and the symbol's record changes exactly in
the named field (no weight recompute, no cache invalidation). -/
theorem C10_setElement_frame_condition (pm : PM) (s el : String) (v : ℚ)
    (r0 : SymbolRec) (h : getRec pm s = some r0)
    (hel : el = "data" ∨ el = "value" ∨ el = "weight") :
    (update_symbol_element pm s el v).2 = none ∧
    (update_symbol_element pm s el v).1.portfolio_value = pm.portfolio_value ∧
    (update_symbol_element pm s el v).1.combined_data = pm.combined_data ∧
    (update_symbol_element pm s el v).1.portfolio_performance
      = pm.portfolio_performance ∧
    (update_symbol_element pm s el v).1.last_loaded = pm.last_loaded ∧
    (∀ t, t ≠ s → getRec (update_symbol_element pm s el v).1 t = getRec pm t) ∧
    getRec (update_symbol_element pm s el v).1 s = some (setAttr r0 el v) ∧
    keys (update_symbol_element pm s el v).1 = keys pm ∧
    (el = "data" → setAttr r0 el v = { r0 with data := .scalar v }) ∧
    (el = "value" → setAttr r0 el v = { r0 with value := v }) ∧
    (el = "weight" → setAttr r0 el v = { r0 with weight := v }) := by
  have key : update_symbol_element pm s el v =
      ({ pm with symbols := setRec pm.symbols s (setAttr r0 el v) }, none) := by
    rcases hel with rfl | rfl | rfl
    · exact setElement_eq_noRecompute pm s "data" v r0 h (by decide) (by decide)
    · exact setElement_eq_noRecompute pm s "value" v r0 h (by decide) (by decide)
    · exact setElement_eq_noRecompute pm s "weight" v r0 h (by decide) (by decide)
  rw [key]
  refine ⟨rfl, rfl, rfl, rfl, rfl, ?_, ?_, ?_, ?_, ?_, ?_⟩
  · intro t ht
    exact findRec_setRec_ne pm.symbols s t _ ht
  · exact findRec_setRec_self pm.symbols s _ r0 h
  · exact keys_setRec pm.symbols s _
  · intro he
    subst he
    unfold setAttr
    rw [if_neg (by decide), if_pos rfl]
  · intro he
    subst he
    unfold setAttr
    rw [if_neg (by decide), if_neg (by decide), if_neg (by decide), if_pos rfl]
  · intro he
    subst he
    unfold setAttr
    rw [if_neg (by decide), if_neg (by decide), if_neg (by decide),
        if_neg (by decide), if_pos rfl]

/-- C10 witness: assigning value 99 to BTCUSDT's "value" element in the
concrete fixture raises nothing and leaves the combined cache in place. -/
theorem C10_setElement_frame_condition_witness :
    (update_symbol_element pmFix "BTCUSDT" "value" 99).2 = none ∧
    (update_symbol_element pmFix "BTCUSDT" "value" 99).1.combined_data
      = pmFix.combined_data :=
  ⟨(C10_setElement_frame_condition pmFix "BTCUSDT" "value" 99 recBTC rfl
      (Or.inr (Or.inl rfl))).1,
   (C10_setElement_frame_condition pmFix "BTCUSDT" "value" 99 recBTC rfl
      (Or.inr (Or.inl rfl))).2.2.1⟩

/- ------------------------------------------------------------------ -/
/- Claim C3                                                            -/
/- ------------------------------------------------------------------ -/

def withWeight (r : SymbolRec) (w : ℚ) : SymbolRec := { r with weight := w }

/-- The weighting pass only rewrites weights: a looked-up record keeps its
value (and all other non-weight fields). -/
theorem getRec_calc_value (pm : PM) (s : String) (r : SymbolRec)
    (h : getRec pm s = some r) :
    ∃ w, getRec (_calculate_weighting pm) s = some (withWeight r w) := by
  rw [calc_getRec, h]
  by_cases hpos : 0 < totalOf pm
  · exact ⟨r.value / totalOf pm, by simp only [Option.map_some, if_pos hpos]; rfl⟩
  · exact ⟨0, by simp only [Option.map_some, if_neg hpos]; rfl⟩

def recSOL : SymbolRec :=
  { units := 1, data := .frame [], close := 0, value := 0, weight := 0,
    colour := "#45B7D1" }

def pmSOL : PM :=
  { symbols := [("SOLUSDC", recSOL)], portfolio_value := 0,
    combined_data := some dfMark, portfolio_performance := some [],
    last_loaded := [] }

/-- C3 counterexample: adding "solusdc" to a portfolio already holding
SOLUSDC normalizes the key but raises no DuplicateSymbol error — the call
returns normally with the portfolio unchanged (the duplicate is only
logged); and a successful fresh add leaves the derived caches populated
instead of invalidating them. -/
theorem C3_cex :
    add_symbol pmSOL "solusdc" 5 "1h" fetchNone "#AAAAAA" 7 = (pmSOL, none) ∧
    (add_symbol pmSOL "NEWUSDT" 2 "1h" fetchNone "#BBBBBB" 7).2 = none ∧
    (add_symbol pmSOL "NEWUSDT" 2 "1h" fetchNone "#BBBBBB" 7).1.combined_data
      = some dfMark := by
  refine ⟨rfl, rfl, ?_⟩
  rw [add_symbol_eq_new pmSOL "NEWUSDT" 2 "1h" fetchNone "#BBBBBB" 7 (by decide)]
  exact (calc_caches _).1

/-- C3 amended: add_symbol uppercases the key; if the normalized key is
already present it logs and returns normally with the portfolio unchanged
(no error value reaches the caller); otherwise it raises nothing, creates
the record with the fetched series, close from the last bar (0 for an
empty fetch), value = close x units and the supplied display colour,
recomputes the weighting (so the weight invariant holds afterwards), and
leaves the derived caches as they were (no invalidation). -/
theorem C3_addSymbol_amended (pm : PM) (s : String) (u : ℚ) (i : String)
    (f : Fetch) (c : String) (now : Nat) :
    (add_symbol pm s u i f c now).2 = none ∧
    (hasSym pm (upperStr s) = true → (add_symbol pm s u i f c now).1 = pm) ∧
    (hasSym pm (upperStr s) = false →
      (add_symbol pm s u i f c now).1.combined_data = pm.combined_data ∧
      (add_symbol pm s u i f c now).1.portfolio_performance
        = pm.portfolio_performance ∧
      (∃ w, getRec (add_symbol pm s u i f c now).1 (upperStr s)
        = some (withWeight (addRec f (upperStr s) i u c) w)) ∧
      WInv (add_symbol pm s u i f c now).1) := by
  by_cases hdup : hasSym pm (upperStr s) = true
  · rw [add_symbol_eq_dup pm s u i f c now hdup]
    refine ⟨rfl, fun _ => rfl, fun hf => ?_⟩
    rw [hdup] at hf
    cases hf
  · have hfalse : hasSym pm (upperStr s) = false := by
      cases hc : hasSym pm (upperStr s)
      · rfl
      · exact absurd hc hdup
    rw [add_symbol_eq_new pm s u i f c now hfalse]
    refine ⟨rfl, fun ht => ?_, fun _ => ⟨?_, ?_, ?_, ?_⟩⟩
    · rw [hfalse] at ht
      cases ht
    · exact (calc_caches _).1
    · exact (calc_caches _).2.1
    · exact getRec_calc_value _ (upperStr s) (addRec f (upperStr s) i u c)
        (findRec_append_right pm.symbols (upperStr s) (addRec f (upperStr s) i u c)
          hfalse)
    · exact winv_calc _

/-- C3 witness: a fresh add in the concrete fixture reports no error and
keeps the populated combined cache; a duplicate add of the normalized key
leaves the state untouched. -/
theorem C3_addSymbol_amended_witness :
    (add_symbol pmSOL "newusdt" 2 "1h" fetchNone "#BBBBBB" 7).1.combined_data
      = some dfMark ∧
    (add_symbol pmSOL "SOLUSDC" 2 "1h" fetchNone "#CCCCCC" 7).1 = pmSOL := by
  have h1 := C3_addSymbol_amended pmSOL "newusdt" 2 "1h" fetchNone "#BBBBBB" 7
  have h2 := C3_addSymbol_amended pmSOL "SOLUSDC" 2 "1h" fetchNone "#CCCCCC" 7
  exact ⟨(h1.2.2 (by decide)).1, h2.2.1 (by decide)⟩

/- ------------------------------------------------------------------ -/
/- Claim C7                                                            -/
/- ------------------------------------------------------------------ -/

/-- C7 counterexample: remove_symbol on an absent symbol raises no error —
it logs a warning and returns normally with the state unchanged (the claim
says it fails with SymbolNotFound returned synchronously); and getElement
of "colour", a field outside _symbol_attributes, succeeds rather than
failing with UnknownField. -/
theorem C7_cex :
    remove_symbol pmFix "ZZZUSDT" = (pmFix, none) ∧
    get_symbol_element pmFix "BTCUSDT" "colour" = .ok (.str "#FF6B6B") ∧
    ¬ ("colour" ∈ _symbol_attributes) :=
  ⟨rfl, rfl, by decide⟩

/-- C7 amended: remove_symbol on an absent symbol logs a warning and is a
no-op returning no error; get_symbol_element and update_symbol_element
raise ValueError for an absent symbol; get_symbol_element raises
ValueError for a field outside the symbol's stored keys (the five
attributes plus colour, so colour is readable), while
update_symbol_element raises ValueError for a field outside
_symbol_attributes; and setting units or close through
update_symbol_element recomputes value = close x units and the weighting
(the weight invariant holds afterwards). -/
theorem C7_structural_amended (pm : PM) (s el : String) (v : ℚ) :
    (hasSym pm s = false → remove_symbol pm s = (pm, none)) ∧
    (getRec pm s = none →
      get_symbol_element pm s el = .error (.valueError (notFoundMsg s)) ∧
      update_symbol_element pm s el v
        = (pm, some (.valueError (notFoundMsg s)))) ∧
    (∀ r0, getRec pm s = some r0 →
      (el ∈ elementKeys → get_symbol_element pm s el = .ok (getAttr r0 el)) ∧
      (el ∉ elementKeys → get_symbol_element pm s el = .error (.valueError
        ("Element " ++ el ++ " not found in symbol " ++ s ++ "."))) ∧
      (el ∉ _symbol_attributes → update_symbol_element pm s el v
        = (pm, some (.valueError
            ("Element " ++ el ++ " not found in symbol attributes.")))) ∧
      get_symbol_element pm s "colour" = .ok (.str r0.colour) ∧
      (getRec (update_symbol_element pm s "units" v).1 s).map (fun r => r.value)
        = some (r0.close * v) ∧
      WInv (update_symbol_element pm s "units" v).1 ∧
      (getRec (update_symbol_element pm s "close" v).1 s).map (fun r => r.value)
        = some (v * r0.units) ∧
      WInv (update_symbol_element pm s "close" v).1) := by
  refine ⟨?_, ?_, ?_⟩
  · intro h
    exact remove_symbol_eq_absent pm s h
  · intro h
    constructor
    · unfold get_symbol_element
      simp only [h]
    · exact setElement_eq_absent pm s el v h
  · intro r0 h0
    refine ⟨?_, ?_, ?_, ?_, ?_, ?_, ?_, ?_⟩
    · intro hin
      unfold get_symbol_element
      simp only [h0]
      rw [if_pos hin]
    · intro hout
      unfold get_symbol_element
      simp only [h0]
      rw [if_neg hout]
    · intro hout
      exact setElement_eq_unknown pm s el v r0 h0 hout
    · unfold get_symbol_element
      simp only [h0]
      rw [if_pos (by decide : ("colour" : String) ∈ elementKeys)]
      unfold getAttr
      rw [if_neg (by decide), if_neg (by decide), if_neg (by decide),
          if_neg (by decide), if_neg (by decide)]
    · rw [setElement_eq_recompute pm s "units" v r0 h0 (by decide) (Or.inl rfl)]
      obtain ⟨w, hw⟩ := getRec_calc_value
        { pm with
          symbols := setRec pm.symbols s (withValue (setAttr r0 "units" v)) } s
        (withValue (setAttr r0 "units" v))
        (findRec_setRec_self pm.symbols s (withValue (setAttr r0 "units" v))
          r0 h0)
      rw [hw]
      rfl
    · rw [setElement_eq_recompute pm s "units" v r0 h0 (by decide) (Or.inl rfl)]
      exact winv_calc _
    · rw [setElement_eq_recompute pm s "close" v r0 h0 (by decide)
        (Or.inr rfl)]
      obtain ⟨w, hw⟩ := getRec_calc_value
        { pm with
          symbols := setRec pm.symbols s (withValue (setAttr r0 "close" v)) } s
        (withValue (setAttr r0 "close" v))
        (findRec_setRec_self pm.symbols s (withValue (setAttr r0 "close" v))
          r0 h0)
      rw [hw]
      rfl
    · rw [setElement_eq_recompute pm s "close" v r0 h0 (by decide)
        (Or.inr rfl)]
      exact winv_calc _

/-- C7 witness: in the concrete fixture, assigning 3 units to BTCUSDT
through update_symbol_element recomputes its value to close times units
(11 times 3). -/
theorem C7_structural_amended_witness :
    (getRec (update_symbol_element pmFix "BTCUSDT" "units" 3).1 "BTCUSDT").map
      (fun r => r.value) = some (recBTC.close * 3) :=
  ((C7_structural_amended pmFix "BTCUSDT" "units" 3).2.2 recBTC rfl).2.2.2.2.1

/- ------------------------------------------------------------------ -/
/- Claim C6                                                            -/
/- ------------------------------------------------------------------ -/

/-- C6 counterexample: operations that change a symbol's state but do NOT
invalidate the derived caches: update_symbol_element (here setting units,
which even recomputes the weighting) and add_symbol both leave the
populated combined cache in place. -/
theorem C6_cex :
    (update_symbol_element pmFix "BTCUSDT" "units" 3).1.combined_data
      = some dfMark ∧
    (add_symbol pmFix "ETHUSDT" 1 "1h" fetchNone "#CCCCCC" 7).1.combined_data
      = some dfMark := by
  constructor
  · rw [setElement_eq_recompute pmFix "BTCUSDT" "units" 3 recBTC rfl
      (by decide) (Or.inl rfl)]
    exact (calc_caches _).1
  · rw [add_symbol_eq_new pmFix "ETHUSDT" 1 "1h" fetchNone "#CCCCCC" 7
      (by decide)]
    exact (calc_caches _).1

/- ------------------------------------------------------------------ -/
/- Claim C1                                                            -/
/- ------------------------------------------------------------------ -/

theorem keys_invalidate (pm : PM) :
    keys (_invalidate_computed_data pm) = keys pm := rfl

theorem applyUnits_weight (ou : Option ℚ) (r : SymbolRec) :
    (applyUnits ou r).weight = r.weight := by
  cases ou <;> rfl

theorem setRec_id_of_not_mem (syms : List (String × SymbolRec)) (s : String)
    (r : SymbolRec) (h : ∀ p ∈ syms, p.1 ≠ s) : setRec syms s r = syms := by
  induction syms with
  | nil => rfl
  | cons p rest ih =>
    rw [setRec_cons, if_neg (h p (List.mem_cons_self p rest))]
    rw [ih (fun q hq => h q (List.mem_cons_of_mem p hq))]

theorem findRec_mem (syms : List (String × SymbolRec)) (s : String)
    (r : SymbolRec) (h : findRec syms s = some r) : ∃ p ∈ syms, p.2 = r := by
  induction syms with
  | nil => simp [findRec] at h
  | cons p rest ih =>
    rw [findRec_cons] at h
    by_cases hp : p.1 = s
    · rw [if_pos hp] at h
      exact ⟨p, List.mem_cons_self p rest, Option.some_inj.mp h⟩
    · rw [if_neg hp] at h
      obtain ⟨q, hq, hqr⟩ := ih h
      exact ⟨q, List.mem_cons_of_mem p hq, hqr⟩

theorem map_weight_setRec_applyUnits (syms : List (String × SymbolRec))
    (s : String) (ou : Option ℚ) (r0 : SymbolRec)
    (h : findRec syms s = some r0)
    (hnd : (syms.map (fun p => p.1)).Nodup) :
    (setRec syms s (applyUnits ou r0)).map (fun p => p.2.weight)
      = syms.map (fun p => p.2.weight) := by
  induction syms with
  | nil => rfl
  | cons p rest ih =>
    rw [List.map_cons, List.nodup_cons] at hnd
    obtain ⟨hout, hndr⟩ := hnd
    rw [findRec_cons] at h
    rw [setRec_cons, List.map_cons, List.map_cons]
    by_cases hp : p.1 = s
    · rw [if_pos hp] at h
      have hr : p.2 = r0 := Option.some_inj.mp h
      have hrest : setRec rest s (applyUnits ou r0) = rest := by
        apply setRec_id_of_not_mem
        intro q hq hqs
        apply hout
        rw [List.mem_map]
        exact ⟨q, hq, hqs.trans hp.symm⟩
      rw [if_pos hp, hrest, applyUnits_weight, ← hr]
    · rw [if_neg hp] at h
      rw [if_neg hp, ih h hndr]

theorem winv_units_only (pm : PM) (s : String) (ou : Option ℚ)
    (r0 : SymbolRec) (h : getRec pm s = some r0)
    (hnd : (keys pm).Nodup) (hw : WInv pm) :
    WInv { pm with symbols := setRec pm.symbols s (applyUnits ou r0) } := by
  constructor
  · intro hpos
    show ((setRec pm.symbols s (applyUnits ou r0)).map
      (fun p => p.2.weight)).sum = 1
    rw [map_weight_setRec_applyUnits pm.symbols s ou r0 h hnd]
    exact hw.1 hpos
  · intro h0 p' hp'
    have hp'' : p' ∈ pm.symbols.map
        (fun p => (p.1, if p.1 = s then applyUnits ou r0 else p.2)) := hp'
    rw [List.mem_map] at hp''
    obtain ⟨q, hq, rfl⟩ := hp''
    by_cases hqs : q.1 = s
    · rw [if_pos hqs]
      show (applyUnits ou r0).weight = 0
      rw [applyUnits_weight]
      obtain ⟨p0, hp0, hp0r⟩ := findRec_mem pm.symbols s r0 h
      rw [← hp0r]
      exact hw.2 h0 p0 hp0
    · rw [if_neg hqs]
      exact hw.2 h0 q hq

theorem winv_update_symbol (pm : PM) (s : String) (ou : Option ℚ)
    (i : String) (f : Fetch) (now : Nat) (hw : WInv pm) :
    WInv (update_symbol pm s ou i f now).1 := by
  cases hr : getRec pm s with
  | none =>
    rw [update_symbol_eq_absent pm s ou i f now hr]
    exact hw
  | some r0 =>
    rw [update_symbol_eq_present pm s ou i f now r0 hr]
    exact winv_invalidate _ (winv_calc _)

theorem winv_update_symbol_async (pm : PM) (s : String) (ou : Option ℚ)
    (ud : Bool) (i : String) (f : Fetch) (now : Nat) (hw : WInv pm)
    (hnd : (keys pm).Nodup) :
    WInv (update_symbol_async pm s ou ud i f now).1 := by
  cases hr : getRec pm s with
  | none =>
    rw [update_symbol_async_eq_absent pm s ou ud i f now hr]
    exact hw
  | some r0 =>
    cases ud with
    | true =>
      rw [update_symbol_async_eq_fetch pm s ou i f now r0 hr]
      exact winv_invalidate _ (winv_calc _)
    | false =>
      cases hd : (applyUnits ou r0).data with
      | frame d =>
        rw [update_symbol_async_eq_skip pm s ou i f now r0 d hr hd]
        exact winv_invalidate _ (winv_calc _)
      | scalar q =>
        rw [update_symbol_async_eq_scalar pm s ou i f now r0 q hr hd]
        exact winv_units_only pm s ou r0 hr hnd hw

theorem keys_update_symbol (pm : PM) (s : String) (ou : Option ℚ)
    (i : String) (f : Fetch) (now : Nat) :
    keys (update_symbol pm s ou i f now).1 = keys pm := by
  cases hr : getRec pm s with
  | none =>
    rw [update_symbol_eq_absent pm s ou i f now hr]
  | some r0 =>
    rw [update_symbol_eq_present pm s ou i f now r0 hr]
    rw [keys_invalidate, keys_calc]
    exact keys_setRec pm.symbols s _

theorem keys_update_symbol_async (pm : PM) (s : String) (ou : Option ℚ)
    (ud : Bool) (i : String) (f : Fetch) (now : Nat) :
    keys (update_symbol_async pm s ou ud i f now).1 = keys pm := by
  cases hr : getRec pm s with
  | none =>
    rw [update_symbol_async_eq_absent pm s ou ud i f now hr]
  | some r0 =>
    cases ud with
    | true =>
      rw [update_symbol_async_eq_fetch pm s ou i f now r0 hr]
      rw [keys_invalidate, keys_calc]
      exact keys_setRec pm.symbols s _
    | false =>
      cases hd : (applyUnits ou r0).data with
      | frame d =>
        rw [update_symbol_async_eq_skip pm s ou i f now r0 d hr hd]
        rw [keys_invalidate, keys_calc]
        exact keys_setRec pm.symbols s _
      | scalar q =>
        rw [update_symbol_async_eq_scalar pm s ou i f now r0 q hr hd]
        exact keys_setRec pm.symbols s _

theorem winv_update_all (pm : PM) (ou : Option ℚ) (i : String) (f : Fetch)
    (now : Nat) (hw : WInv pm) : WInv (update_all_symbols pm ou i f now).1 := by
  unfold update_all_symbols
  have hgen : ∀ (L : List String) (acc : PM × Option Err), WInv acc.1 →
      WInv ((L.foldl (fun acc s =>
        match acc.2 with
        | some _ => acc
        | none => update_symbol acc.1 s ou i f now) acc).1) := by
    intro L
    induction L with
    | nil => intro acc ha; exact ha
    | cons a L ih =>
      intro acc ha
      rw [List.foldl_cons]
      obtain ⟨pmA, oeA⟩ := acc
      cases oeA with
      | none => exact ih _ (winv_update_symbol pmA a ou i f now ha)
      | some e => exact ih _ ha
  exact hgen (keys pm) (pm, none) hw

theorem winv_update_all_async (pm : PM) (ou : Option ℚ) (ud : Bool)
    (i : String) (f : Fetch) (now : Nat) (hw : WInv pm)
    (hnd : (keys pm).Nodup) :
    WInv (update_all_symbols_async pm ou ud i f now) := by
  unfold update_all_symbols_async
  have hgen : ∀ (L : List String) (acc : PM),
      WInv acc → (keys acc).Nodup →
      WInv (L.foldl (fun acc s =>
        (update_symbol_async acc s ou ud i f now).1) acc) := by
    intro L
    induction L with
    | nil => intro acc ha _; exact ha
    | cons a L ih =>
      intro acc ha hand
      rw [List.foldl_cons]
      exact ih _ (winv_update_symbol_async acc a ou ud i f now ha hand)
        (by rw [keys_update_symbol_async]; exact hand)
  exact hgen (keys pm) pm hw hnd

/-- C1: the weight invariant (totalValue > 0 forces the weights to sum to
exactly 1 in the rational model, totalValue = 0 forces every weight to 0)
is preserved and re-established by every completed mutating operation:
add_symbol, remove_symbol, update_symbol, both update_all loops, and
update_symbol_element with element units or close; moreover the weighting
pass divides value by totalValue only in the branch where totalValue is
positive, and otherwise assigns 0 to every weight, so no division by zero
(and, in float terms, no NaN/Inf) can occur. -/
theorem C1_weights_invariant (pm : PM) (hw : WInv pm)
    (hnd : (keys pm).Nodup) (s : String) (u v : ℚ) (ou : Option ℚ)
    (ud : Bool) (i : String) (f : Fetch) (c : String) (now : Nat)
    (el : String) :
    WInv (add_symbol pm s u i f c now).1 ∧
    WInv (remove_symbol pm s).1 ∧
    WInv (update_symbol pm s ou i f now).1 ∧
    WInv (update_all_symbols pm ou i f now).1 ∧
    WInv (update_all_symbols_async pm ou ud i f now) ∧
    ((el = "units" ∨ el = "close") →
      WInv (update_symbol_element pm s el v).1) ∧
    (0 < totalOf pm → (_calculate_weighting pm).symbols
      = pm.symbols.map (fun p => (p.1, withWeight p.2 (p.2.value / totalOf pm)))) ∧
    (¬ 0 < totalOf pm → (_calculate_weighting pm).symbols
      = pm.symbols.map (fun p => (p.1, withWeight p.2 0))) := by
  refine ⟨?_, ?_, ?_, ?_, ?_, ?_, ?_, ?_⟩
  · by_cases hdup : hasSym pm (upperStr s) = true
    · rw [add_symbol_eq_dup pm s u i f c now hdup]
      exact hw
    · have hfalse : hasSym pm (upperStr s) = false := by
        cases hc : hasSym pm (upperStr s)
        · rfl
        · exact absurd hc hdup
      rw [add_symbol_eq_new pm s u i f c now hfalse]
      exact winv_calc _
  · by_cases hpres : hasSym pm s = true
    · rw [remove_symbol_eq_present pm s hpres]
      exact winv_invalidate _ (winv_calc _)
    · have hfalse : hasSym pm s = false := by
        cases hc : hasSym pm s
        · rfl
        · exact absurd hc hpres
      rw [remove_symbol_eq_absent pm s hfalse]
      exact hw
  · exact winv_update_symbol pm s ou i f now hw
  · exact winv_update_all pm ou i f now hw
  · exact winv_update_all_async pm ou ud i f now hw hnd
  · intro h2
    cases hr : getRec pm s with
    | none =>
      rw [setElement_eq_absent pm s el v hr]
      exact hw
    | some r0 =>
      have h1 : el ∈ _symbol_attributes := by
        rcases h2 with rfl | rfl <;> decide
      rw [setElement_eq_recompute pm s el v r0 hr h1 h2]
      exact winv_calc _
  · intro hpos
    rw [calc_eq, if_pos hpos]
    rfl
  · intro hpos
    rw [calc_eq, if_neg hpos]
    rfl

/-- The concrete fixture satisfies the weight invariant. -/
theorem winv_pmFix : WInv pmFix := by
  constructor
  · intro _
    show ((pmFix.symbols).map (fun p => p.2.weight)).sum = 1
    norm_num [pmFix, recBTC]
  · intro h0
    exfalso
    norm_num [pmFix] at h0

/-- C1 witness: the invariant holds after a concrete close assignment
through update_symbol_element on the fixture portfolio. -/
theorem C1_weights_invariant_witness :
    WInv (update_symbol_element pmFix "BTCUSDT" "close" 20).1 :=
  (C1_weights_invariant pmFix winv_pmFix (by decide) "BTCUSDT" 1 20 none
    false "1h" fetchNone "#000000" 0 "close").2.2.2.2.2.1 (Or.inr rfl)

/- ------------------------------------------------------------------ -/
/- Claim C4                                                            -/
/- ------------------------------------------------------------------ -/

theorem getRec_invalidate (pm : PM) (t : String) :
    getRec (_invalidate_computed_data pm) t = getRec pm t := rfl

/-- update_symbol on a present symbol: the committed record, up to the
weight rewritten by the weighting pass. -/
theorem getRec_update_symbol_self (pm : PM) (s : String) (ou : Option ℚ)
    (i : String) (f : Fetch) (now : Nat) (r0 : SymbolRec)
    (h : getRec pm s = some r0) :
    ∃ w, getRec (update_symbol pm s ou i f now).1 s
      = some (withWeight (refreshRec f s i ou r0) w) := by
  rw [update_symbol_eq_present pm s ou i f now r0 h]
  exact getRec_calc_value _ s _
    (findRec_setRec_self pm.symbols s _ r0 h)

/-- update_symbol_async with update_data set, on a present symbol. -/
theorem getRec_update_symbol_async_fetch_self (pm : PM) (s : String)
    (ou : Option ℚ) (i : String) (f : Fetch) (now : Nat) (r0 : SymbolRec)
    (h : getRec pm s = some r0) :
    ∃ w, getRec (update_symbol_async pm s ou true i f now).1 s
      = some (withWeight (refreshRec f s i ou r0) w) := by
  rw [update_symbol_async_eq_fetch pm s ou i f now r0 h]
  exact getRec_calc_value _ s _
    (findRec_setRec_self pm.symbols s _ r0 h)

/-- update_symbol_async with update_data unset, on a present symbol whose
series slot is a frame: the fetch is skipped and close/value are
recomputed from the retained series. -/
theorem getRec_update_symbol_async_skip_self (pm : PM) (s : String)
    (ou : Option ℚ) (i : String) (f : Fetch) (now : Nat) (r0 : SymbolRec)
    (d : KlineDF) (h : getRec pm s = some r0)
    (hd : (applyUnits ou r0).data = DataCell.frame d) :
    ∃ w, getRec (update_symbol_async pm s ou false i f now).1 s
      = some (withWeight (recomputeRec ou r0 d) w) := by
  rw [update_symbol_async_eq_skip pm s ou i f now r0 d h hd]
  exact getRec_calc_value _ s _
    (findRec_setRec_self pm.symbols s _ r0 h)

def krB : KRow :=
  { opentime := 3, closetime := 4, «open» := 20, high := 21, low := 19,
    close := 20, volume := 10, quote_volume := 5, log_returns := none }

/-- A provider that always delivers the single bar krB. -/
def fetchB : Fetch := fun _ _ => some [krB]

def recEmpty : SymbolRec :=
  { units := 2, data := .frame [], close := 0, value := 0, weight := 0,
    colour := "#123456" }

def pmEmptyData : PM :=
  { symbols := [("AAAUSDT", recEmpty)], portfolio_value := 0,
    combined_data := none, portfolio_performance := none, last_loaded := [] }

/-- C4 counterexample: no staleness policy exists in the code.  (1) The
synchronous update_symbol refetches the series even when the spec's
staleness policy says the cached data is fresh (age 0 under a 300-second
maxAge, series non-empty, no force flag): the fixture's series [krA] is
replaced by the freshly fetched [krB].  (2) Conversely the asynchronous
variant with its update_data flag unset does NOT refresh even when the
policy says the cached data must be refreshed (empty series is stale):
the empty series is retained although the provider has data. -/
theorem C4_cex :
    (isStale 100 100 300 false false = false ∧
     (getRec (update_symbol pmFix "BTCUSDT" none "1h" fetchB 7).1
        "BTCUSDT").map (fun r => r.data) = some (.frame [krB]) ∧
     DataCell.frame [krB] ≠ DataCell.frame [krA]) ∧
    (isStale 100 100 300 false true = true ∧
     (getRec (update_symbol_async pmEmptyData "AAAUSDT" none false "1h"
        fetchB 7).1 "AAAUSDT").map (fun r => r.data) = some (.frame []) ∧
     get_kline fetchB "AAAUSDT" "1h" ≠ []) := by
  refine ⟨⟨by decide, ?_, by decide⟩, ⟨by decide, ?_, by decide⟩⟩
  · obtain ⟨w, hw⟩ := getRec_update_symbol_self pmFix "BTCUSDT" none "1h"
      fetchB 7 recBTC rfl
    rw [hw]
    rfl
  · obtain ⟨w, hw⟩ := getRec_update_symbol_async_skip_self pmEmptyData
      "AAAUSDT" none "1h" fetchB 7 recEmpty [] rfl rfl
    rw [hw]
    rfl

/-- C4 amended: update_symbol on a present symbol ALWAYS refetches the
series (no staleness check and no force flag exist in the code);
update_symbol_async refetches exactly when its update_data flag is set;
when the fetch is skipped, close/value are still recomputed from the
retained series and the optionally changed units (refreshRec/recomputeRec
spell this out); both variants raise nothing, recompute the weighting and
unconditionally invalidate the derived caches. -/
theorem C4_updateSymbol_amended (pm : PM) (s : String) (ou : Option ℚ)
    (i : String) (f : Fetch) (now : Nat) (r0 : SymbolRec)
    (h : getRec pm s = some r0) :
    (∃ w, getRec (update_symbol pm s ou i f now).1 s
      = some (withWeight (refreshRec f s i ou r0) w)) ∧
    (update_symbol pm s ou i f now).2 = none ∧
    (update_symbol pm s ou i f now).1.combined_data = none ∧
    (update_symbol pm s ou i f now).1.portfolio_performance = none ∧
    WInv (update_symbol pm s ou i f now).1 ∧
    (∃ w, getRec (update_symbol_async pm s ou true i f now).1 s
      = some (withWeight (refreshRec f s i ou r0) w)) ∧
    (update_symbol_async pm s ou true i f now).2 = none ∧
    (∀ d, (applyUnits ou r0).data = DataCell.frame d →
      (∃ w, getRec (update_symbol_async pm s ou false i f now).1 s
        = some (withWeight (recomputeRec ou r0 d) w)) ∧
      (update_symbol_async pm s ou false i f now).2 = none ∧
      (update_symbol_async pm s ou false i f now).1.combined_data = none ∧
      (update_symbol_async pm s ou false i f now).1.portfolio_performance
        = none) := by
  refine ⟨getRec_update_symbol_self pm s ou i f now r0 h, ?_, ?_, ?_, ?_,
    getRec_update_symbol_async_fetch_self pm s ou i f now r0 h, ?_, ?_⟩
  · rw [update_symbol_eq_present pm s ou i f now r0 h]
  · rw [update_symbol_eq_present pm s ou i f now r0 h]
    rfl
  · rw [update_symbol_eq_present pm s ou i f now r0 h]
    rfl
  · rw [update_symbol_eq_present pm s ou i f now r0 h]
    exact winv_invalidate _ (winv_calc _)
  · rw [update_symbol_async_eq_fetch pm s ou i f now r0 h]
  · intro d hd
    refine ⟨getRec_update_symbol_async_skip_self pm s ou i f now r0 d h hd,
      ?_, ?_, ?_⟩
    · rw [update_symbol_async_eq_skip pm s ou i f now r0 d h hd]
    · rw [update_symbol_async_eq_skip pm s ou i f now r0 d h hd]
      rfl
    · rw [update_symbol_async_eq_skip pm s ou i f now r0 d h hd]
      rfl

/-- C4 witness: on the concrete fixture, update_symbol reports no error
and invalidates the combined cache. -/
theorem C4_updateSymbol_amended_witness :
    (update_symbol pmFix "BTCUSDT" none "1h" fetchB 7).2 = none ∧
    (update_symbol pmFix "BTCUSDT" none "1h" fetchB 7).1.combined_data
      = none := by
  have h := C4_updateSymbol_amended pmFix "BTCUSDT" none "1h" fetchB 7
    recBTC rfl
  exact ⟨h.2.1, h.2.2.1⟩

/- ------------------------------------------------------------------ -/
/- Claim C2                                                            -/
/- ------------------------------------------------------------------ -/

theorem withWeight_withWeight (r : SymbolRec) (w w' : ℚ) :
    withWeight (withWeight r w) w' = withWeight r w' := rfl

theorem withWeight_self (r : SymbolRec) : withWeight r r.weight = r := rfl

theorem withWeight_value (r : SymbolRec) (w : ℚ) :
    (withWeight r w).value = r.value := rfl

theorem refreshRec_withWeight (f : Fetch) (s i : String) (ou : Option ℚ)
    (r0 : SymbolRec) (w : ℚ) :
    refreshRec f s i ou (withWeight r0 w)
      = withWeight (refreshRec f s i ou r0) w := by
  unfold refreshRec withWeight applyUnits
  cases ou <;> rfl

theorem findRec_isSome_of_mem (syms : List (String × SymbolRec))
    (p : String × SymbolRec) (h : p ∈ syms) : (findRec syms p.1).isSome := by
  induction syms with
  | nil => exact absurd h (List.not_mem_nil p)
  | cons q rest ih =>
    rw [findRec_cons]
    by_cases hq : q.1 = p.1
    · rw [if_pos hq]
      rfl
    · rw [if_neg hq]
      rcases List.mem_cons.mp h with rfl | hrest
      · exact absurd rfl hq
      · exact ih hrest

theorem isSome_of_mem_keys (pm : PM) (s : String) (h : s ∈ keys pm) :
    (getRec pm s).isSome := by
  unfold keys at h
  rw [List.mem_map] at h
  obtain ⟨p, hp, rfl⟩ := h
  exact findRec_isSome_of_mem pm.symbols p hp

theorem findRec_of_mem_nodup (syms : List (String × SymbolRec))
    (hnd : (syms.map (fun p => p.1)).Nodup) (s : String) (r : SymbolRec)
    (h : (s, r) ∈ syms) : findRec syms s = some r := by
  induction syms with
  | nil => exact absurd h (List.not_mem_nil (s, r))
  | cons q rest ih =>
    rw [List.map_cons, List.nodup_cons] at hnd
    obtain ⟨hout, hndr⟩ := hnd
    rw [findRec_cons]
    rcases List.mem_cons.mp h with heq | hrest
    · rw [← heq]
      rw [if_pos rfl]
    · have hq : ¬ (q.1 = s) := by
        intro hc
        apply hout
        rw [List.mem_map]
        exact ⟨(s, r), hrest, hc.symm⟩
      rw [if_neg hq]
      exact ih hndr hrest

/-- update_symbol leaves every other symbol's record unchanged up to the
weight rewritten by the weighting pass. -/
theorem getRec_update_symbol_other (pm : PM) (s t : String) (ou : Option ℚ)
    (i : String) (f : Fetch) (now : Nat) (r0 r : SymbolRec) (hts : t ≠ s)
    (h0 : getRec pm s = some r0) (h : getRec pm t = some r) :
    ∃ w, getRec (update_symbol pm s ou i f now).1 t = some (withWeight r w) := by
  rw [update_symbol_eq_present pm s ou i f now r0 h0]
  have hy : getRec { pm with
      symbols := setRec pm.symbols s (refreshRec f s i ou r0),
      last_loaded := setLL pm.last_loaded s now } t = some r := by
    show findRec (setRec pm.symbols s (refreshRec f s i ou r0)) t = some r
    rw [findRec_setRec_ne pm.symbols s t _ hts]
    exact h
  exact getRec_calc_value _ t r hy

/-- update_symbol_async with the update_data flag set, likewise. -/
theorem getRec_update_symbol_async_other (pm : PM) (s t : String)
    (ou : Option ℚ) (i : String) (f : Fetch) (now : Nat) (r0 r : SymbolRec)
    (hts : t ≠ s) (h0 : getRec pm s = some r0) (h : getRec pm t = some r) :
    ∃ w, getRec (update_symbol_async pm s ou true i f now).1 t
      = some (withWeight r w) := by
  rw [update_symbol_async_eq_fetch pm s ou i f now r0 h0]
  have hy : getRec { pm with
      symbols := setRec pm.symbols s (refreshRec f s i ou r0),
      last_loaded := setLL pm.last_loaded s now } t = some r := by
    show findRec (setRec pm.symbols s (refreshRec f s i ou r0)) t = some r
    rw [findRec_setRec_ne pm.symbols s t _ hts]
    exact h
  exact getRec_calc_value _ t r hy

/-- The generic fan-out induction: folding a per-symbol refresh step over a
duplicate-free list of present symbols refreshes each listed symbol's
record (up to the final weight) and leaves unlisted symbols unchanged (up
to the final weight). -/
theorem fold_refresh_go (ou : Option ℚ) (i : String) (f : Fetch)
    (stepF : PM → String → PM)
    (hself : ∀ (acc : PM) (s : String) (r0 : SymbolRec),
      getRec acc s = some r0 →
      ∃ w, getRec (stepF acc s) s = some (withWeight (refreshRec f s i ou r0) w))
    (hother : ∀ (acc : PM) (s : String) (r0 : SymbolRec) (t : String)
      (r : SymbolRec), getRec acc s = some r0 → t ≠ s →
      getRec acc t = some r →
      ∃ w, getRec (stepF acc s) t = some (withWeight r w)) :
    ∀ (L : List String) (acc : PM), L.Nodup →
    (∀ s ∈ L, (getRec acc s).isSome) →
    ((∀ t r, t ∉ L → getRec acc t = some r →
        ∃ w, getRec (L.foldl stepF acc) t = some (withWeight r w)) ∧
     (∀ s r0, s ∈ L → getRec acc s = some r0 →
        ∃ w, getRec (L.foldl stepF acc) s
          = some (withWeight (refreshRec f s i ou r0) w))) := by
  intro L
  induction L with
  | nil =>
    intro acc _ _
    constructor
    · intro t r _ h
      exact ⟨r.weight, by rw [List.foldl_nil, h, withWeight_self]⟩
    · intro s r0 hs
      exact absurd hs (List.not_mem_nil s)
  | cons a L ih =>
    intro acc hnd hpres
    rw [List.nodup_cons] at hnd
    obtain ⟨hout, hndL⟩ := hnd
    obtain ⟨rA, hA⟩ := Option.isSome_iff_exists.mp
      (hpres a (List.mem_cons_self a L))
    obtain ⟨wA, hwA⟩ := hself acc a rA hA
    rw [List.foldl_cons]
    have hpres' : ∀ s ∈ L, (getRec (stepF acc a) s).isSome := by
      intro s hs
      obtain ⟨r, hr⟩ := Option.isSome_iff_exists.mp
        (hpres s (List.mem_cons_of_mem a hs))
      have hsa : s ≠ a := fun hc => hout (hc ▸ hs)
      obtain ⟨w, hw⟩ := hother acc a rA s r hA hsa hr
      rw [hw]
      rfl
    obtain ⟨ihNot, ihIn⟩ := ih (stepF acc a) hndL hpres'
    constructor
    · intro t r htL hr
      have hta : t ≠ a := fun hc => htL (hc ▸ List.mem_cons_self a L)
      have htL' : t ∉ L := fun hc => htL (List.mem_cons_of_mem a hc)
      obtain ⟨w1, hw1⟩ := hother acc a rA t r hA hta hr
      obtain ⟨w2, hw2⟩ := ihNot t (withWeight r w1) htL' hw1
      exact ⟨w2, by rw [hw2, withWeight_withWeight]⟩
    · intro s r0 hsL hs0
      rcases List.mem_cons.mp hsL with heq | hsL'
      · subst heq
        have hr : rA = r0 := by
          rw [hA] at hs0
          exact Option.some_inj.mp hs0
        obtain ⟨w2, hw2⟩ := ihNot s (withWeight (refreshRec f s i ou rA) wA)
          hout hwA
        refine ⟨w2, ?_⟩
        rw [hw2, withWeight_withWeight, hr]
      · have hsa : s ≠ a := fun hc => hout (hc ▸ hsL')
        obtain ⟨w1, hw1⟩ := hother acc a rA s r0 hA hsa hs0
        obtain ⟨w2, hw2⟩ := ihIn s (withWeight r0 w1) hsL' hw1
        exact ⟨w2, by
          rw [hw2, refreshRec_withWeight, withWeight_withWeight]⟩

theorem isSome_update_symbol (pm : PM) (s t : String) (ou : Option ℚ)
    (i : String) (f : Fetch) (now : Nat) (rA : SymbolRec)
    (hA : getRec pm s = some rA) (h : (getRec pm t).isSome) :
    (getRec (update_symbol pm s ou i f now).1 t).isSome := by
  by_cases hts : t = s
  · subst hts
    obtain ⟨w, hw⟩ := getRec_update_symbol_self pm t ou i f now rA hA
    rw [hw]
    rfl
  · obtain ⟨r, hr⟩ := Option.isSome_iff_exists.mp h
    obtain ⟨w, hw⟩ := getRec_update_symbol_other pm s t ou i f now rA r hts hA hr
    rw [hw]
    rfl

/-- The synchronous update_all loop over present symbols never raises: the
accumulated exception slot stays None, so the loop is the plain fold of
per-symbol updates. -/
theorem update_all_pair_eq (ou : Option ℚ) (i : String) (f : Fetch)
    (now : Nat) :
    ∀ (L : List String) (acc : PM), (∀ s ∈ L, (getRec acc s).isSome) →
    L.foldl (fun acc s =>
      match acc.2 with
      | some _ => acc
      | none => update_symbol acc.1 s ou i f now) (acc, none)
    = (L.foldl (fun acc s => (update_symbol acc s ou i f now).1) acc, none) := by
  intro L
  induction L with
  | nil =>
    intro acc _
    rw [List.foldl_nil, List.foldl_nil]
  | cons a L ih =>
    intro acc hpres
    obtain ⟨rA, hA⟩ := Option.isSome_iff_exists.mp
      (hpres a (List.mem_cons_self a L))
    rw [List.foldl_cons, List.foldl_cons]
    have e1 : (match (acc, (none : Option Err)).2 with
        | some _ => (acc, (none : Option Err))
        | none => update_symbol acc a ou i f now)
        = ((update_symbol acc a ou i f now).1, none) := by
      show update_symbol acc a ou i f now = _
      rw [update_symbol_eq_present acc a ou i f now rA hA]
    rw [e1]
    exact ih ((update_symbol acc a ou i f now).1)
      (fun s hs => isSome_update_symbol acc a s ou i f now rA hA
        (hpres s (List.mem_cons_of_mem a hs)))

/-- C2 amended: updateAll never fails as a batch (the synchronous loop's
exception slot stays None; the async gather collects and discards
per-task exceptions), but a symbol whose provider call fails does NOT keep
its last-known-good state: get_kline catches the provider error and
returns an EMPTY frame, and the update commits it, so that symbol's series
becomes empty and its close/value become 0 (refreshRec applied to an empty
get_kline result), while symbols whose fetches succeed are refreshed with
their new data. -/
theorem C2_updateAll_amended (pm : PM) (ou : Option ℚ) (i : String)
    (f : Fetch) (now : Nat) (hnd : (keys pm).Nodup) :
    (update_all_symbols pm ou i f now).2 = none ∧
    (∀ s r0, (s, r0) ∈ pm.symbols →
      ∃ w, getRec (update_all_symbols pm ou i f now).1 s
        = some (withWeight (refreshRec f s i ou r0) w)) ∧
    (∀ s r0, (s, r0) ∈ pm.symbols →
      ∃ w, getRec (update_all_symbols_async pm ou true i f now) s
        = some (withWeight (refreshRec f s i ou r0) w)) := by
  have hpresAll : ∀ s ∈ keys pm, (getRec pm s).isSome :=
    fun s hs => isSome_of_mem_keys pm s hs
  have hpair := update_all_pair_eq ou i f now (keys pm) pm hpresAll
  have hgo := fold_refresh_go ou i f
    (fun acc s => (update_symbol acc s ou i f now).1)
    (fun acc s r0 h => getRec_update_symbol_self acc s ou i f now r0 h)
    (fun acc s r0 t r h0 hts hr =>
      getRec_update_symbol_other acc s t ou i f now r0 r hts h0 hr)
    (keys pm) pm hnd hpresAll
  have hgoA := fold_refresh_go ou i f
    (fun acc s => (update_symbol_async acc s ou true i f now).1)
    (fun acc s r0 h => getRec_update_symbol_async_fetch_self acc s ou i f now r0 h)
    (fun acc s r0 t r h0 hts hr =>
      getRec_update_symbol_async_other acc s t ou i f now r0 r hts h0 hr)
    (keys pm) pm hnd hpresAll
  refine ⟨?_, ?_, ?_⟩
  · unfold update_all_symbols
    rw [hpair]
  · intro s r0 hmem
    have hs : getRec pm s = some r0 := findRec_of_mem_nodup pm.symbols hnd s r0 hmem
    have hks : s ∈ keys pm := List.mem_map.mpr ⟨(s, r0), hmem, rfl⟩
    unfold update_all_symbols
    rw [hpair]
    exact hgo.2 s r0 hks hs
  · intro s r0 hmem
    have hs : getRec pm s = some r0 := findRec_of_mem_nodup pm.symbols hnd s r0 hmem
    have hks : s ∈ keys pm := List.mem_map.mpr ⟨(s, r0), hmem, rfl⟩
    unfold update_all_symbols_async
    exact hgoA.2 s r0 hks hs

def recAAA : SymbolRec :=
  { units := 1, data := .frame [krA], close := 11, value := 11, weight := 0,
    colour := "#111111" }

def recBBB : SymbolRec :=
  { units := 1, data := .frame [krA], close := 11, value := 11, weight := 0,
    colour := "#222222" }

def pmTwo : PM :=
  { symbols := [("AAA", recAAA), ("BBB", recBBB)], portfolio_value := 22,
    combined_data := none, portfolio_performance := none, last_loaded := [] }

/-- A provider whose client raises for AAA and delivers krB otherwise. -/
def fetchFailAAA : Fetch := fun s _ => if s = "AAA" then none else some [krB]

/-- C2 counterexample: in the two-symbol portfolio, the provider call for
AAA fails during update_all_symbols.  AAA's previous series [krA] and
value 11 are NOT retained: its series becomes the empty frame get_kline
returned and its value becomes 0, while BBB refreshes to the newly fetched
bar.  The batch itself completes without an exception. -/
theorem C2_cex :
    (getRec pmTwo "AAA").map (fun r => r.value) = some 11 ∧
    (getRec pmTwo "AAA").map (fun r => r.data) = some (.frame [krA]) ∧
    (getRec (update_all_symbols pmTwo none "1h" fetchFailAAA 7).1 "AAA").map
      (fun r => r.data) = some (.frame []) ∧
    (getRec (update_all_symbols pmTwo none "1h" fetchFailAAA 7).1 "AAA").map
      (fun r => r.value) = some 0 ∧
    (getRec (update_all_symbols pmTwo none "1h" fetchFailAAA 7).1 "BBB").map
      (fun r => r.data) = some (.frame [krB]) ∧
    (update_all_symbols pmTwo none "1h" fetchFailAAA 7).2 = none ∧
    DataCell.frame ([] : KlineDF) ≠ DataCell.frame [krA] ∧ (0 : ℚ) ≠ 11 := by
  obtain ⟨hnone, hall, -⟩ :=
    C2_updateAll_amended pmTwo none "1h" fetchFailAAA 7 (by decide)
  obtain ⟨wA, hwA⟩ := hall "AAA" recAAA (List.mem_cons_self _ _)
  obtain ⟨wB, hwB⟩ := hall "BBB" recBBB
    (List.mem_cons_of_mem _ (List.mem_cons_self _ _))
  have hvalA : (refreshRec fetchFailAAA "AAA" "1h" none recAAA).value = 0 := by
    unfold refreshRec applyUnits
    norm_num [get_kline, fetchFailAAA, recAAA]
  refine ⟨rfl, rfl, ?_, ?_, ?_, hnone, by decide, by decide⟩
  · rw [hwA]
    rfl
  · rw [hwA]
    show some ((withWeight (refreshRec fetchFailAAA "AAA" "1h" none recAAA)
      wA).value) = some 0
    rw [withWeight_value, hvalA]
  · rw [hwB]
    rfl

/-- C2 witness: the amended batch behaviour at the concrete two-symbol
portfolio — no batch error, and BBB's record refreshed by the async loop. -/
theorem C2_updateAll_amended_witness :
    (update_all_symbols pmTwo none "1h" fetchFailAAA 7).2 = none ∧
    ∃ w, getRec (update_all_symbols_async pmTwo none true "1h" fetchFailAAA 7)
      "BBB" = some (withWeight (refreshRec fetchFailAAA "BBB" "1h" none recBBB) w) := by
  have h := C2_updateAll_amended pmTwo none "1h" fetchFailAAA 7 (by decide)
  exact ⟨h.1, h.2.2 "BBB" recBBB
    (List.mem_cons_of_mem _ (List.mem_cons_self _ _))⟩

/- ------------------------------------------------------------------ -/
/- Claim C5: column-name disjointness of the per-symbol rename.        -/
/- ------------------------------------------------------------------ -/

/-- The first three characters of a column name: enough to tell the six
renamed value-column families and quote_volume apart. -/
def pref3 (n : String) : List Char := n.data.take 3

theorem pref3_open (s : String) : pref3 ("open_" ++ s) = ['o', 'p', 'e'] := by
  unfold pref3
  rw [String.data_append]
  rfl

theorem pref3_high (s : String) : pref3 ("high_" ++ s) = ['h', 'i', 'g'] := by
  unfold pref3
  rw [String.data_append]
  rfl

theorem pref3_low (s : String) : pref3 ("low_" ++ s) = ['l', 'o', 'w'] := by
  unfold pref3
  rw [String.data_append]
  rfl

theorem pref3_close (s : String) : pref3 ("close_" ++ s) = ['c', 'l', 'o'] := by
  unfold pref3
  rw [String.data_append]
  rfl

theorem pref3_volume (s : String) : pref3 ("volume_" ++ s) = ['v', 'o', 'l'] := by
  unfold pref3
  rw [String.data_append]
  rfl

theorem pref3_log (s : String) :
    pref3 ("log_returns_" ++ s) = ['l', 'o', 'g'] := by
  unfold pref3
  rw [String.data_append]
  rfl

theorem pref3_quote : pref3 "quote_volume" = ['q', 'u', 'o'] := rfl

theorem strApp_inj (p s t : String) (h : p ++ s = p ++ t) : s = t := by
  have hd := congrArg String.data h
  rw [String.data_append, String.data_append] at hd
  have hst := List.append_cancel_left hd
  cases s with
  | mk ds =>
    cases t with
    | mk dt =>
      exact congrArg String.mk hst

/-- Suffixed value-column names identify their symbol: a name cannot lie in
two different symbols' renamed-column sets. -/
theorem renamedCols_inj (s t c : String) (hs : c ∈ renamedCols s)
    (ht : c ∈ renamedCols t) : s = t := by
  simp only [renamedCols, List.mem_cons, List.not_mem_nil, or_false] at hs ht
  rcases hs with rfl | rfl | rfl | rfl | rfl | rfl <;>
    rcases ht with h | h | h | h | h | h <;>
    first
      | exact strApp_inj _ _ _ h
      | (exfalso
         have hp := congrArg pref3 h
         simp only [pref3_open, pref3_high, pref3_low, pref3_close,
           pref3_volume, pref3_log] at hp
         exact absurd hp (by decide))

theorem renamedCols_ne_quote (s c : String) (hs : c ∈ renamedCols s) :
    c ≠ "quote_volume" := by
  simp only [renamedCols, List.mem_cons, List.not_mem_nil, or_false] at hs
  rcases hs with rfl | rfl | rfl | rfl | rfl | rfl <;>
    (intro h
     have hp := congrArg pref3 h
     simp only [pref3_open, pref3_high, pref3_low, pref3_close,
       pref3_volume, pref3_log, pref3_quote] at hp
     exact absurd hp (by decide))

/- ------------------------------------------------------------------ -/
/- Claim C5: rename and merge lemmas.                                  -/
/- ------------------------------------------------------------------ -/

/-- Every row of a renamed frame comes from a bar with the same key pair,
and all its cell names are either quote_volume or suffixed with the
frame's symbol. -/
theorem renameDf_cells (s : String) (d : KlineDF) (row : GRow)
    (h : row ∈ renameDf s d) :
    (∃ kr ∈ d, krKey kr = rowKey row) ∧
    ∀ ce ∈ row.cells, ce.1 = "quote_volume" ∨ ce.1 ∈ renamedCols s := by
  unfold renameDf at h
  rw [List.mem_map] at h
  obtain ⟨kr, hkr, rfl⟩ := h
  constructor
  · exact ⟨kr, hkr, rfl⟩
  · intro ce hce
    cases hlr : kr.log_returns with
    | some q =>
      rw [hlr] at hce
      simp only [List.mem_append, List.mem_cons, List.not_mem_nil,
        or_false] at hce
      rcases hce with (rfl | rfl | rfl | rfl | rfl | rfl) | rfl <;>
        first
          | (left; rfl)
          | (right; simp [renamedCols])
    | none =>
      rw [hlr] at hce
      simp only [List.mem_append, List.mem_cons, List.not_mem_nil,
        List.append_nil, or_false] at hce
      rcases hce with rfl | rfl | rfl | rfl | rfl | rfl <;>
        first
          | (left; rfl)
          | (right; simp [renamedCols])

theorem renameDf_key_iff (s : String) (d : KlineDF) (k : Nat × Nat) :
    (∃ row ∈ renameDf s d, rowKey row = k) ↔ (∃ kr ∈ d, krKey kr = k) := by
  constructor
  · rintro ⟨row, hrow, rfl⟩
    unfold renameDf at hrow
    rw [List.mem_map] at hrow
    obtain ⟨kr, hkr, rfl⟩ := hrow
    exact ⟨kr, hkr, rfl⟩
  · rintro ⟨kr, hkr, rfl⟩
    refine ⟨_, List.mem_map.mpr ⟨kr, hkr, rfl⟩, rfl⟩

theorem mergeRowFn_key (r : DF) (lr : GRow) :
    rowKey (mergeRowFn r lr) = rowKey lr := by
  unfold mergeRowFn
  cases hf : r.find? (fun rr => rowKey rr = rowKey lr) <;> rfl

theorem mergeRowFn_cells (r : DF) (lr : GRow) (ce : String × ℚ)
    (hce : ce ∈ (mergeRowFn r lr).cells) :
    ce ∈ lr.cells ∨ ∃ rr ∈ r, rowKey rr = rowKey lr ∧ ce ∈ rr.cells := by
  unfold mergeRowFn at hce
  cases hf : r.find? (fun rr => rowKey rr = rowKey lr) with
  | none =>
    rw [hf] at hce
    exact Or.inl hce
  | some rr =>
    rw [hf] at hce
    have hce' : ce ∈ lr.cells ++ rr.cells := hce
    rcases List.mem_append.mp hce' with h1 | h1
    · exact Or.inl h1
    · right
      refine ⟨rr, List.mem_of_find?_eq_some hf, ?_, h1⟩
      have hp := List.find?_some hf
      simp only [decide_eq_true_eq] at hp
      exact hp

theorem mergeOuter_key_iff (l r : DF) (k : Nat × Nat) :
    (∃ row ∈ mergeOuter l r, rowKey row = k) ↔
    (∃ row ∈ l, rowKey row = k) ∨ (∃ row ∈ r, rowKey row = k) := by
  unfold mergeOuter
  constructor
  · rintro ⟨row, hrow, rfl⟩
    rcases List.mem_append.mp hrow with hl | hr
    · rw [List.mem_map] at hl
      obtain ⟨lr, hlr, rfl⟩ := hl
      exact Or.inl ⟨lr, hlr, (mergeRowFn_key r lr).symm⟩
    · exact Or.inr ⟨row, (List.mem_filter.mp hr).1, rfl⟩
  · rintro (⟨lr, hlr, rfl⟩ | ⟨rr, hrr, rfl⟩)
    · exact ⟨mergeRowFn r lr,
        List.mem_append_left _ (List.mem_map.mpr ⟨lr, hlr, rfl⟩),
        mergeRowFn_key r lr⟩
    · by_cases hl : ∃ lr ∈ l, rowKey lr = rowKey rr
      · obtain ⟨lr, hlr, hk⟩ := hl
        exact ⟨mergeRowFn r lr,
          List.mem_append_left _ (List.mem_map.mpr ⟨lr, hlr, rfl⟩),
          (mergeRowFn_key r lr).trans hk⟩
      · refine ⟨rr, List.mem_append_right _ (List.mem_filter.mpr ⟨hrr, ?_⟩), rfl⟩
        apply decide_eq_true
        intro hany
        rw [List.any_eq_true] at hany
        obtain ⟨lr, hlr, hk⟩ := hany
        exact hl ⟨lr, hlr, of_decide_eq_true hk⟩

/-- The invariant carried through the fold: every cell of every row is
either the shared quote_volume column or a column suffixed by a symbol
whose frame contains that row's key pair. -/
def CellsOK (contribs : List (String × KlineDF)) (d : DF) : Prop :=
  ∀ row ∈ d, ∀ ce ∈ row.cells, ce.1 = "quote_volume" ∨
    ∃ pr ∈ contribs, (∃ kr ∈ pr.2, krKey kr = rowKey row) ∧
      ce.1 ∈ renamedCols pr.1

theorem cellsOK_mono (A B : List (String × KlineDF)) (d : DF)
    (hAB : ∀ pr ∈ A, pr ∈ B) (h : CellsOK A d) : CellsOK B d := by
  intro row hrow ce hce
  rcases h row hrow ce hce with hq | ⟨pr, hpr, hk, hc⟩
  · exact Or.inl hq
  · exact Or.inr ⟨pr, hAB pr hpr, hk, hc⟩

theorem cellsOK_rename (s : String) (d : KlineDF) :
    CellsOK [(s, d)] (renameDf s d) := by
  intro row hrow ce hce
  obtain ⟨⟨kr, hkr, hkey⟩, hnames⟩ := renameDf_cells s d row hrow
  rcases hnames ce hce with hq | hr
  · exact Or.inl hq
  · exact Or.inr ⟨(s, d), List.mem_cons_self _ _, ⟨kr, hkr, hkey⟩, hr⟩

theorem cellsOK_merge (A B : List (String × KlineDF)) (l r : DF)
    (hA : CellsOK A l) (hB : CellsOK B r) :
    CellsOK (A ++ B) (mergeOuter l r) := by
  intro row hrow ce hce
  unfold mergeOuter at hrow
  rcases List.mem_append.mp hrow with hl | hr
  · rw [List.mem_map] at hl
    obtain ⟨lr, hlr, rfl⟩ := hl
    rcases mergeRowFn_cells r lr ce hce with hcl | ⟨rr, hrr, hkeyeq, hcr⟩
    · rcases hA lr hlr ce hcl with hq | ⟨pr, hpr, ⟨kr, hkr, hk⟩, hcn⟩
      · exact Or.inl hq
      · refine Or.inr ⟨pr, List.mem_append_left _ hpr, ⟨kr, hkr, ?_⟩, hcn⟩
        rw [mergeRowFn_key]
        exact hk
    · rcases hB rr hrr ce hcr with hq | ⟨pr, hpr, ⟨kr, hkr, hk⟩, hcn⟩
      · exact Or.inl hq
      · refine Or.inr ⟨pr, List.mem_append_right _ hpr, ⟨kr, hkr, ?_⟩, hcn⟩
        rw [mergeRowFn_key, ← hkeyeq]
        exact hk
  · rcases hB row (List.mem_filter.mp hr).1 ce hce with hq | ⟨pr, hpr, hk, hcn⟩
    · exact Or.inl hq
    · exact Or.inr ⟨pr, List.mem_append_right _ hpr, hk, hcn⟩

theorem cellsOK_selfapp (C : List (String × KlineDF)) (d : DF)
    (h : CellsOK (C ++ C) d) : CellsOK C d := by
  intro row hrow ce hce
  rcases h row hrow ce hce with hq | ⟨pr, hpr, hk, hc⟩
  · exact Or.inl hq
  · rcases List.mem_append.mp hpr with h1 | h1 <;> exact Or.inr ⟨pr, h1, hk, hc⟩

theorem foldl_merge_cellsOK (C : List (String × KlineDF)) :
    ∀ (ds : List DF) (d0 : DF), CellsOK C d0 → (∀ df ∈ ds, CellsOK C df) →
    CellsOK C (ds.foldl mergeOuter d0) := by
  intro ds
  induction ds with
  | nil =>
    intro d0 h0 _
    exact h0
  | cons d ds ih =>
    intro d0 h0 hds
    rw [List.foldl_cons]
    apply ih
    · exact cellsOK_selfapp C _
        (cellsOK_merge C C d0 d h0 (hds d (List.mem_cons_self d ds)))
    · intro df hdf
      exact hds df (List.mem_cons_of_mem d hdf)

theorem foldl_merge_key_iff (ds : List DF) (d0 : DF) (k : Nat × Nat) :
    (∃ row ∈ ds.foldl mergeOuter d0, rowKey row = k) ↔
    (∃ df ∈ d0 :: ds, ∃ row ∈ df, rowKey row = k) := by
  induction ds generalizing d0 with
  | nil => simp
  | cons d ds ih =>
    rw [List.foldl_cons, ih (mergeOuter d0 d)]
    constructor
    · rintro ⟨df, hdf, hex⟩
      rcases List.mem_cons.mp hdf with rfl | hdf'
      · rcases (mergeOuter_key_iff d0 d k).mp hex with h1 | h1
        · exact ⟨d0, by simp, h1⟩
        · exact ⟨d, by simp, h1⟩
      · exact ⟨df, by simp [hdf'], hex⟩
    · rintro ⟨df, hdf, hex⟩
      rcases List.mem_cons.mp hdf with rfl | hdf'
      · exact ⟨mergeOuter df d, by simp,
          (mergeOuter_key_iff df d k).mpr (Or.inl hex)⟩
      · rcases List.mem_cons.mp hdf' with rfl | hdf''
        · exact ⟨mergeOuter d0 df, by simp,
            (mergeOuter_key_iff d0 df k).mpr (Or.inr hex)⟩
        · exact ⟨df, by simp [hdf''], hex⟩

/- ------------------------------------------------------------------ -/
/- Claim C5: collectDfs characterization and the main theorem.         -/
/- ------------------------------------------------------------------ -/

/-- The list of renamed per-symbol frames the combiner's loop builds, in
dict order, skipping empty frames. -/
def renamedList : List (String × SymbolRec) → List DF
  | [] => []
  | (s, r) :: rest =>
    if (r.data.frameOf).isEmpty then renamedList rest
    else renameDf s (r.data.frameOf) :: renamedList rest

theorem renamedList_cons (s : String) (r : SymbolRec)
    (rest : List (String × SymbolRec)) :
    renamedList ((s, r) :: rest) =
      if (r.data.frameOf).isEmpty then renamedList rest
      else renameDf s (r.data.frameOf) :: renamedList rest := rfl

theorem frameOf_frame (d : KlineDF) : (DataCell.frame d).frameOf = d := rfl

theorem collectDfs_frames (syms : List (String × SymbolRec))
    (h : ∀ p ∈ syms, p.2.data.isFrame = true) :
    collectDfs syms = .ok (renamedList syms) := by
  induction syms with
  | nil => rfl
  | cons p rest ih =>
    obtain ⟨s, r⟩ := p
    cases hd : r.data with
    | scalar q =>
      have := h (s, r) (List.mem_cons_self _ _)
      rw [hd] at this
      cases this
    | frame d =>
      have ihr := ih (fun q hq => h q (List.mem_cons_of_mem _ hq))
      show collectDfs ((s, r) :: rest) = Except.ok (renamedList ((s, r) :: rest))
      rw [renamedList_cons, hd, frameOf_frame]
      unfold collectDfs
      rw [hd, ihr]
      rfl

theorem renamedList_mem (syms : List (String × SymbolRec)) (df : DF)
    (h : df ∈ renamedList syms) :
    ∃ p ∈ syms, (p.2.data.frameOf).isEmpty = false ∧
      df = renameDf p.1 (p.2.data.frameOf) := by
  induction syms with
  | nil => exact absurd h (List.not_mem_nil df)
  | cons p rest ih =>
    obtain ⟨s, r⟩ := p
    unfold renamedList at h
    by_cases he : (r.data.frameOf).isEmpty = true
    · rw [if_pos he] at h
      obtain ⟨q, hq, hqe, hqdf⟩ := ih h
      exact ⟨q, List.mem_cons_of_mem _ hq, hqe, hqdf⟩
    · rw [if_neg he] at h
      rcases List.mem_cons.mp h with rfl | h'
      · exact ⟨(s, r), List.mem_cons_self _ _,
          Bool.eq_false_iff.mpr (fun hc => he hc), rfl⟩
      · obtain ⟨q, hq, hqe, hqdf⟩ := ih h'
        exact ⟨q, List.mem_cons_of_mem _ hq, hqe, hqdf⟩

theorem renamedList_mem_of (syms : List (String × SymbolRec))
    (p : String × SymbolRec) (hp : p ∈ syms)
    (hne : (p.2.data.frameOf).isEmpty = false) :
    renameDf p.1 (p.2.data.frameOf) ∈ renamedList syms := by
  induction syms with
  | nil => exact absurd hp (List.not_mem_nil p)
  | cons q rest ih =>
    obtain ⟨s, r⟩ := q
    unfold renamedList
    rcases List.mem_cons.mp hp with rfl | hp'
    · rw [if_neg (by rw [hne]; exact Bool.false_ne_true)]
      exact List.mem_cons_self _ _
    · by_cases he : (r.data.frameOf).isEmpty = true
      · rw [if_pos he]
        exact ih hp'
      · rw [if_neg he]
        exact List.mem_cons_of_mem _ (ih hp')

/-- The per-symbol frames contributing cells, keyed by symbol. -/
def contribsOf (syms : List (String × SymbolRec)) : List (String × KlineDF) :=
  syms.map (fun p => (p.1, p.2.data.frameOf))

theorem cellsOK_renamedList (syms : List (String × SymbolRec)) (df : DF)
    (hdf : df ∈ renamedList syms) : CellsOK (contribsOf syms) df := by
  obtain ⟨p, hp, _, rfl⟩ := renamedList_mem syms df hdf
  apply cellsOK_mono [(p.1, p.2.data.frameOf)]
  · intro pr hpr
    rcases List.mem_cons.mp hpr with rfl | hnil
    · exact List.mem_map.mpr ⟨p, hp, rfl⟩
    · exact absurd hnil (List.not_mem_nil pr)
  · exact cellsOK_rename p.1 (p.2.data.frameOf)

theorem eq_of_mem_keys_nodup (syms : List (String × SymbolRec))
    (hnd : (syms.map (fun p => p.1)).Nodup) (p q : String × SymbolRec)
    (hp : p ∈ syms) (hq : q ∈ syms) (h : p.1 = q.1) : p = q := by
  induction syms with
  | nil => exact absurd hp (List.not_mem_nil p)
  | cons a rest ih =>
    rw [List.map_cons, List.nodup_cons] at hnd
    obtain ⟨hout, hndr⟩ := hnd
    rcases List.mem_cons.mp hp with rfl | hp'
    · rcases List.mem_cons.mp hq with rfl | hq'
      · rfl
      · exact absurd (List.mem_map.mpr ⟨q, hq', h.symm⟩) hout
    · rcases List.mem_cons.mp hq with rfl | hq'
      · exact absurd (List.mem_map.mpr ⟨p, hp', h⟩) hout
      · exact ih hndr hp' hq'

theorem key_in_renamedList_iff (syms : List (String × SymbolRec))
    (k : Nat × Nat) :
    (∃ df ∈ renamedList syms, ∃ row ∈ df, rowKey row = k) ↔
    (∃ p ∈ syms, ∃ kr ∈ p.2.data.frameOf, krKey kr = k) := by
  constructor
  · rintro ⟨df, hdf, row, hrow, rfl⟩
    obtain ⟨p, hp, _, rfl⟩ := renamedList_mem syms df hdf
    obtain ⟨⟨kr, hkr, hk⟩, -⟩ := renameDf_cells p.1 (p.2.data.frameOf) row hrow
    exact ⟨p, hp, kr, hkr, hk⟩
  · rintro ⟨p, hp, kr, hkr, rfl⟩
    have hne : (p.2.data.frameOf).isEmpty = false := by
      cases hfo : p.2.data.frameOf with
      | nil =>
        rw [hfo] at hkr
        exact absurd hkr (List.not_mem_nil kr)
      | cons a l => rfl
    refine ⟨renameDf p.1 (p.2.data.frameOf),
      renamedList_mem_of syms p hp hne, ?_⟩
    exact (renameDf_key_iff p.1 (p.2.data.frameOf) (krKey kr)).mpr
      ⟨kr, hkr, rfl⟩

theorem gen_combine_eq_empty (pm : PM) (h : pm.symbols = []) :
    gen_combine_ohlc pm = ({ pm with combined_data := some [] }, none) := by
  unfold gen_combine_ohlc
  rw [h]
  rfl

theorem isEmpty_false_of_ne_nil (pm : PM) (hne : ¬ pm.symbols = []) :
    pm.symbols.isEmpty = false := by
  cases hs : pm.symbols with
  | nil => exact absurd hs hne
  | cons a l => rfl

theorem gen_combine_eq_nil (pm : PM) (hne : ¬ pm.symbols = [])
    (hframes : ∀ p ∈ pm.symbols, p.2.data.isFrame = true)
    (hrl : renamedList pm.symbols = []) :
    gen_combine_ohlc pm = ({ pm with combined_data := some [] }, none) := by
  unfold gen_combine_ohlc
  rw [if_neg (by rw [isEmpty_false_of_ne_nil pm hne]; exact Bool.false_ne_true)]
  rw [collectDfs_frames pm.symbols hframes, hrl]

theorem gen_combine_eq_cons (pm : PM) (hne : ¬ pm.symbols = [])
    (hframes : ∀ p ∈ pm.symbols, p.2.data.isFrame = true) (d0 : DF)
    (ds : List DF) (hrl : renamedList pm.symbols = d0 :: ds) :
    gen_combine_ohlc pm =
      ({ pm with combined_data := some (ds.foldl mergeOuter d0) }, none) := by
  unfold gen_combine_ohlc
  rw [if_neg (by rw [isEmpty_false_of_ne_nil pm hne]; exact Bool.false_ne_true)]
  rw [collectDfs_frames pm.symbols hframes, hrl]

/-- C5: gen_combine_ohlc on a portfolio whose data slots are frames (with
per-frame unique key pairs — the data-model invariant under which the
modelled merge matches pandas) raises nothing and produces a combined
table such that: a key pair appears in the table iff it appears in some
symbol's series (union of timestamps, so empty series contribute
nothing); and in every row, every renamed column of a symbol whose series
does not contain that row's key pair is explicitly missing (None, not 0);
an empty symbols dict yields an empty table. -/
theorem C5_combiner (pm : PM)
    (hframes : ∀ p ∈ pm.symbols, p.2.data.isFrame = true)
    (_hkeysu : ∀ p ∈ pm.symbols, ((p.2.data.frameOf).map krKey).Nodup)
    (hsymnd : (keys pm).Nodup) :
    (gen_combine_ohlc pm).2 = none ∧
    ∃ cd, (gen_combine_ohlc pm).1.combined_data = some cd ∧
      (∀ k, (∃ row ∈ cd, rowKey row = k) ↔
        (∃ p ∈ pm.symbols, ∃ kr ∈ p.2.data.frameOf, krKey kr = k)) ∧
      (∀ row ∈ cd, ∀ p ∈ pm.symbols,
        (∀ kr ∈ p.2.data.frameOf, krKey kr ≠ rowKey row) →
        ∀ c ∈ renamedCols p.1, cellVal row c = none) ∧
      (pm.symbols = [] → cd = []) := by
  by_cases hne : pm.symbols = []
  · rw [gen_combine_eq_empty pm hne]
    refine ⟨rfl, [], rfl, ?_, ?_, fun _ => rfl⟩
    · intro k
      rw [hne]
      simp
    · intro row hrow
      exact absurd hrow (List.not_mem_nil row)
  · cases hrl : renamedList pm.symbols with
    | nil =>
      rw [gen_combine_eq_nil pm hne hframes hrl]
      refine ⟨rfl, [], rfl, ?_, ?_, fun h => absurd h hne⟩
      · intro k
        constructor
        · rintro ⟨row, hrow, -⟩
          exact absurd hrow (List.not_mem_nil row)
        · rintro ⟨p, hp, kr, hkr, -⟩
          have hfne : (p.2.data.frameOf).isEmpty = false := by
            cases hfo : p.2.data.frameOf with
            | nil =>
              rw [hfo] at hkr
              exact absurd hkr (List.not_mem_nil kr)
            | cons a l => rfl
          have := renamedList_mem_of pm.symbols p hp hfne
          rw [hrl] at this
          exact absurd this (List.not_mem_nil _)
      · intro row hrow
        exact absurd hrow (List.not_mem_nil row)
    | cons d0 ds =>
      rw [gen_combine_eq_cons pm hne hframes d0 ds hrl]
      have hOK : CellsOK (contribsOf pm.symbols) (ds.foldl mergeOuter d0) := by
        apply foldl_merge_cellsOK
        · exact cellsOK_renamedList pm.symbols d0
            (by rw [hrl]; exact List.mem_cons_self _ _)
        · intro df hdf
          exact cellsOK_renamedList pm.symbols df
            (by rw [hrl]; exact List.mem_cons_of_mem _ hdf)
      refine ⟨rfl, ds.foldl mergeOuter d0, rfl, ?_, ?_, fun h => absurd h hne⟩
      · intro k
        rw [foldl_merge_key_iff ds d0 k, ← hrl]
        exact key_in_renamedList_iff pm.symbols k
      · intro row hrow p hp hnokr c hc
        unfold cellVal
        rw [Option.map_eq_none', List.find?_eq_none]
        intro ce hce hdec
        have hcec : ce.1 = c := of_decide_eq_true hdec
        rcases hOK row hrow ce hce with hq | ⟨pr, hpr, ⟨kr, hkr, hkey⟩, hcn⟩
        · exact renamedCols_ne_quote p.1 c hc (by rw [← hcec]; exact hq)
        · rw [hcec] at hcn
          have hpr1 : pr.1 = p.1 := renamedCols_inj pr.1 p.1 c hcn hc
          obtain ⟨q, hq2, hpreq⟩ := List.mem_map.mp hpr
          have hq1 : q.1 = p.1 := by
            rw [← hpr1, ← hpreq]
          have hqp : q = p := eq_of_mem_keys_nodup pm.symbols hsymnd q p hq2 hp hq1
          have hkr' : kr ∈ p.2.data.frameOf := by
            rw [← hqp]
            have : pr.2 = q.2.data.frameOf := by rw [← hpreq]
            rw [← this]
            exact hkr
          exact hnokr kr hkr' hkey

def recXAU : SymbolRec :=
  { units := 1, data := .frame [krA], close := 11, value := 11, weight := 0,
    colour := "#333333" }

def recYBT : SymbolRec :=
  { units := 1, data := .frame [krB], close := 20, value := 20, weight := 0,
    colour := "#444444" }

def pmC5 : PM :=
  { symbols := [("XAU", recXAU), ("YBT", recYBT)], portfolio_value := 31,
    combined_data := none, portfolio_performance := none, last_loaded := [] }

/-- C5 witness: the combiner on a concrete two-symbol portfolio with
disjoint timestamp sets raises nothing, produces a table, and the key pair
(1, 2) — present only in XAU's series — appears in the combined table. -/
theorem C5_combiner_witness :
    (gen_combine_ohlc pmC5).2 = none ∧
    ∃ cd, (gen_combine_ohlc pmC5).1.combined_data = some cd ∧
      (∃ row ∈ cd, rowKey row = (1, 2)) := by
  have h := C5_combiner pmC5 (by decide) (by decide) (by decide)
  obtain ⟨h1, cd, hcd, hkey, -, -⟩ := h
  refine ⟨h1, cd, hcd, ?_⟩
  exact (hkey (1, 2)).mpr ⟨("XAU", recXAU), List.mem_cons_self _ _, krA,
    List.mem_cons_self _ _, rfl⟩

/- ------------------------------------------------------------------ -/
/- Claim C6 (amended theorem; placed after the update_all machinery).  -/
/- ------------------------------------------------------------------ -/

/-- A non-empty run of per-symbol synchronous updates over present symbols
ends with both derived caches invalidated (every step ends in
_invalidate_computed_data and nothing repopulates the caches). -/
theorem caches_foldl_update (ou : Option ℚ) (i : String) (f : Fetch)
    (now : Nat) :
    ∀ (L : List String) (acc : PM), L ≠ [] →
    (∀ s ∈ L, (getRec acc s).isSome) →
    (L.foldl (fun acc s => (update_symbol acc s ou i f now).1)
      acc).combined_data = none ∧
    (L.foldl (fun acc s => (update_symbol acc s ou i f now).1)
      acc).portfolio_performance = none := by
  intro L
  induction L with
  | nil =>
    intro acc h _
    exact absurd rfl h
  | cons a L ih =>
    intro acc _ hpres
    obtain ⟨rA, hA⟩ := Option.isSome_iff_exists.mp
      (hpres a (List.mem_cons_self a L))
    rw [List.foldl_cons]
    by_cases hL : L = []
    · subst hL
      rw [List.foldl_nil]
      rw [update_symbol_eq_present acc a ou i f now rA hA]
      exact ⟨rfl, rfl⟩
    · exact ih ((update_symbol acc a ou i f now).1) hL
        (fun s hs => isSome_update_symbol acc a s ou i f now rA hA
          (hpres s (List.mem_cons_of_mem a hs)))

theorem isSome_update_symbol_async (pm : PM) (s t : String) (ou : Option ℚ)
    (i : String) (f : Fetch) (now : Nat) (rA : SymbolRec)
    (hA : getRec pm s = some rA) (h : (getRec pm t).isSome) :
    (getRec (update_symbol_async pm s ou true i f now).1 t).isSome := by
  by_cases hts : t = s
  · subst hts
    obtain ⟨w, hw⟩ := getRec_update_symbol_async_fetch_self pm t ou i f now rA hA
    rw [hw]
    rfl
  · obtain ⟨r, hr⟩ := Option.isSome_iff_exists.mp h
    obtain ⟨w, hw⟩ := getRec_update_symbol_async_other pm s t ou i f now rA r
      hts hA hr
    rw [hw]
    rfl

/-- Likewise for the asynchronous per-symbol updates with the update_data
flag set. -/
theorem caches_foldl_update_async (ou : Option ℚ) (i : String) (f : Fetch)
    (now : Nat) :
    ∀ (L : List String) (acc : PM), L ≠ [] →
    (∀ s ∈ L, (getRec acc s).isSome) →
    (L.foldl (fun acc s => (update_symbol_async acc s ou true i f now).1)
      acc).combined_data = none ∧
    (L.foldl (fun acc s => (update_symbol_async acc s ou true i f now).1)
      acc).portfolio_performance = none := by
  intro L
  induction L with
  | nil =>
    intro acc h _
    exact absurd rfl h
  | cons a L ih =>
    intro acc _ hpres
    obtain ⟨rA, hA⟩ := Option.isSome_iff_exists.mp
      (hpres a (List.mem_cons_self a L))
    rw [List.foldl_cons]
    by_cases hL : L = []
    · subst hL
      rw [List.foldl_nil]
      rw [update_symbol_async_eq_fetch acc a ou i f now rA hA]
      exact ⟨rfl, rfl⟩
    · exact ih ((update_symbol_async acc a ou true i f now).1) hL
        (fun s hs => isSome_update_symbol_async acc a s ou i f now rA hA
          (hpres s (List.mem_cons_of_mem a hs)))

theorem keys_eq_nil_iff (pm : PM) : keys pm = [] ↔ pm.symbols = [] := by
  unfold keys
  cases hs : pm.symbols with
  | nil => simp
  | cons a l => simp

/-- C6 amended: remove_symbol (present key) and update_symbol invalidate
both derived caches, and so does each update_all loop on a NON-EMPTY
portfolio (the synchronous loop, and the asynchronous loop when its
update_data flag is set — every per-symbol pass ends in
_invalidate_computed_data); on an empty portfolio the update_all loop
body never runs and the state, caches included, is untouched; add_symbol
and update_symbol_element never invalidate (they leave both caches
exactly as they were); each getter rebuilds its table if and only if its
cache is None and otherwise returns the cached value with the state
untouched. -/
theorem C6_cacheInvalidation_amended (pm : PM) (s el : String) (v u : ℚ)
    (ou : Option ℚ) (i : String) (f : Fetch) (c : String) (now : Nat) :
    (hasSym pm s = true →
      (remove_symbol pm s).1.combined_data = none ∧
      (remove_symbol pm s).1.portfolio_performance = none) ∧
    ((update_symbol pm s ou i f now).2 = none →
      (update_symbol pm s ou i f now).1.combined_data = none ∧
      (update_symbol pm s ou i f now).1.portfolio_performance = none) ∧
    ((add_symbol pm s u i f c now).1.combined_data = pm.combined_data ∧
     (add_symbol pm s u i f c now).1.portfolio_performance
       = pm.portfolio_performance) ∧
    ((update_symbol_element pm s el v).1.combined_data = pm.combined_data ∧
     (update_symbol_element pm s el v).1.portfolio_performance
       = pm.portfolio_performance) ∧
    (∀ cd, pm.combined_data = some cd → get_combined_ohlc pm = (pm, .ok cd)) ∧
    (pm.combined_data = none →
      (get_combined_ohlc pm).1 = (gen_combine_ohlc pm).1) ∧
    (∀ pp, pm.portfolio_performance = some pp →
      get_portfolio_performance pm = (pm, .ok pp)) ∧
    (pm.portfolio_performance = none →
      (get_portfolio_performance pm).1 = (gen_portfolio_performance pm).1) ∧
    (pm.symbols = [] → update_all_symbols pm ou i f now = (pm, none)) ∧
    (pm.symbols = [] → update_all_symbols_async pm ou true i f now = pm) ∧
    (¬ pm.symbols = [] →
      (update_all_symbols pm ou i f now).1.combined_data = none ∧
      (update_all_symbols pm ou i f now).1.portfolio_performance = none) ∧
    (¬ pm.symbols = [] →
      (update_all_symbols_async pm ou true i f now).combined_data = none ∧
      (update_all_symbols_async pm ou true i f now).portfolio_performance
        = none) := by
  have hpresAll : ∀ t ∈ keys pm, (getRec pm t).isSome :=
    fun t ht => isSome_of_mem_keys pm t ht
  refine ⟨?_, ?_, ?_, ?_, ?_, ?_, ?_, ?_, ?_, ?_, ?_, ?_⟩
  · intro h
    rw [remove_symbol_eq_present pm s h]
    exact ⟨rfl, rfl⟩
  · cases hr : getRec pm s with
    | none =>
      intro h2
      rw [update_symbol_eq_absent pm s ou i f now hr] at h2
      cases h2
    | some r0 =>
      intro _
      rw [update_symbol_eq_present pm s ou i f now r0 hr]
      exact ⟨rfl, rfl⟩
  · by_cases hdup : hasSym pm (upperStr s) = true
    · rw [add_symbol_eq_dup pm s u i f c now hdup]
      exact ⟨rfl, rfl⟩
    · have hfalse : hasSym pm (upperStr s) = false := by
        cases hc : hasSym pm (upperStr s)
        · rfl
        · exact absurd hc hdup
      rw [add_symbol_eq_new pm s u i f c now hfalse]
      exact ⟨(calc_caches _).1, (calc_caches _).2.1⟩
  · cases hr : getRec pm s with
    | none =>
      rw [setElement_eq_absent pm s el v hr]
      exact ⟨rfl, rfl⟩
    | some r0 =>
      by_cases h1 : el ∈ _symbol_attributes
      · by_cases h2 : el = "units" ∨ el = "close"
        · rw [setElement_eq_recompute pm s el v r0 hr h1 h2]
          exact ⟨(calc_caches _).1, (calc_caches _).2.1⟩
        · rw [setElement_eq_noRecompute pm s el v r0 hr h1 h2]
          exact ⟨rfl, rfl⟩
      · rw [setElement_eq_unknown pm s el v r0 hr h1]
        exact ⟨rfl, rfl⟩
  · intro cd hc
    unfold get_combined_ohlc
    simp only [hc]
  · intro hc
    unfold get_combined_ohlc
    simp only [hc]
    cases hg : gen_combine_ohlc pm with
    | mk pm1 oe =>
      cases oe <;> rfl
  · intro pp hp
    unfold get_portfolio_performance
    simp only [hp]
  · intro hp
    unfold get_portfolio_performance
    simp only [hp]
    cases hg : gen_portfolio_performance pm with
    | mk pm1 oe =>
      cases oe <;> rfl
  · intro h
    unfold update_all_symbols
    rw [(keys_eq_nil_iff pm).mpr h]
    rw [List.foldl_nil]
  · intro h
    unfold update_all_symbols_async
    rw [(keys_eq_nil_iff pm).mpr h]
    rw [List.foldl_nil]
  · intro hne
    have hkne : keys pm ≠ [] := fun hk => hne ((keys_eq_nil_iff pm).mp hk)
    unfold update_all_symbols
    rw [update_all_pair_eq ou i f now (keys pm) pm hpresAll]
    exact caches_foldl_update ou i f now (keys pm) pm hkne hpresAll
  · intro hne
    have hkne : keys pm ≠ [] := fun hk => hne ((keys_eq_nil_iff pm).mp hk)
    unfold update_all_symbols_async
    exact caches_foldl_update_async ou i f now (keys pm) pm hkne hpresAll

/-- C6 witness: in the concrete fixture, removing the present symbol
invalidates both caches, the getter on a populated cache returns the
cached combined table with the state unchanged, and update_all over the
non-empty portfolio invalidates the combined cache. -/
theorem C6_cacheInvalidation_amended_witness :
    (remove_symbol pmFix "BTCUSDT").1.combined_data = none ∧
    get_combined_ohlc pmFix = (pmFix, .ok dfMark) ∧
    (update_all_symbols pmFix none "1h" fetchB 0).1.combined_data = none := by
  have h := C6_cacheInvalidation_amended pmFix "BTCUSDT" "units" 0 0 none
    "1h" fetchB "#000000" 0
  obtain ⟨h1, -, -, -, h5, -, -, -, -, -, h11, -⟩ := h
  exact ⟨(h1 (by decide)).1, h5 dfMark rfl, (h11 (by decide)).1⟩

end MAA
